import Mathlib

/-!
Formal verification of the Shadow-Hunting-Attack repository's core inference
algorithms against its natural-language specification.

The Python sources are shallowly embedded:
* `src/Server-Coverage-Identifier/iteration_test.py` — per-URL iterative
  partitioner (`identify_server_coverage`, `extract_count`, `execute_endpoint`).
* `src/Attacker-Instances-Proliferation/scaled-out-instances-group.py` —
  single-URL partitioner (`identify_server_sharing`,
  `call_check_and_get_metric_and_id`, `call_instance_id`).
* `src/Attacker-Victim-Server-Sharing-Identifier/target_victim_localization/target_victim_locator.py`
  — binary-search localizer (`binary_search_localization`, `find_candidate_set`,
  `measure_victim_latency`).

Network effects are modelled by oracle functions supplied as parameters: an
oracle maps a call index to the observation the corresponding HTTP request
would have produced.  Python `float("inf")` sentinels are modelled with
`WithTop` types; Python integer metrics with `ℕ`, latencies with `ℚ`.
-/

namespace Shadow

/-! ## Metric parsing

Embedding of the regular-expression parsing in `extract_count`
(`iteration_test.py`, pattern `count\[0\]\s+is\s+(\d+)`, `re.search` over the
whole body) and in `call_check_and_get_metric_and_id`
(`scaled-out-instances-group.py`, pattern `count\[\d+\]\s+is\s+(\d+)`,
`re.search` per line of `text.splitlines()`).  Since the repetition classes
(`\d+`, `\s+`) are disjoint from the characters that follow them in the
pattern, the backtracking regex engine is equivalent to the maximal-munch
matcher embedded here. -/

/-- Python's `\s` class over ASCII: space, tab, newline, carriage return,
vertical tab, form feed. -/
def pyIsSpace (c : Char) : Bool :=
  c = ' ' || c = '\t' || c = '\n' || c = '\r' || c = '\x0b' || c = '\x0c'

/-- Split a character list into its maximal digit prefix and the rest. -/
def digitsSplit (cs : List Char) : List Char × List Char :=
  (cs.takeWhile Char.isDigit, cs.dropWhile Char.isDigit)

/-- Python `int(...)` on a digit string. -/
def parseNatDigits (ds : List Char) : ℕ :=
  ds.foldl (fun n c => 10 * n + (c.toNat - 48)) 0

/-- Match a literal prefix; return the remainder on success. -/
def stripLit : List Char → List Char → Option (List Char)
  | [], cs => some cs
  | _ :: _, [] => none
  | p :: ps, c :: cs => if c = p then stripLit ps cs else none

/-- Match `\s+ is \s+ (\d+)` at the head of `cs`; return the captured value. -/
def matchAfterBracket (cs : List Char) : Option ℕ :=
  let sp1 := cs.takeWhile pyIsSpace
  let cs1 := cs.dropWhile pyIsSpace
  if sp1.isEmpty then none else
  match stripLit ("is".toList) cs1 with
  | none => none
  | some cs2 =>
    let sp2 := cs2.takeWhile pyIsSpace
    let cs3 := cs2.dropWhile pyIsSpace
    if sp2.isEmpty then none else
    let ds := cs3.takeWhile Char.isDigit
    if ds.isEmpty then none else some (parseNatDigits ds)

/-- Match `count\[\d+\]\s+is\s+(\d+)` at the head of `cs`. -/
def matchCountAnyAt (cs : List Char) : Option ℕ :=
  match stripLit ("count[".toList) cs with
  | none => none
  | some cs1 =>
    let ds := cs1.takeWhile Char.isDigit
    let cs2 := cs1.dropWhile Char.isDigit
    if ds.isEmpty then none else
    match cs2 with
    | c :: cs3 => if c = ']' then matchAfterBracket cs3 else none
    | [] => none

/-- Match `count\[0\]\s+is\s+(\d+)` at the head of `cs`. -/
def matchCountZeroAt (cs : List Char) : Option ℕ :=
  match stripLit ("count[0]".toList) cs with
  | none => none
  | some cs1 => matchAfterBracket cs1

/-- `re.search`: try the matcher at each start position, left to right. -/
def searchFrom (m : List Char → Option ℕ) : List Char → Option ℕ
  | [] => none
  | c :: cs =>
    match m (c :: cs) with
    | some v => some v
    | none => searchFrom m cs

/-- `extract_count` from `iteration_test.py`: first `count[0] is <int>`
occurrence anywhere in the response text, `none` when absent. -/
def extract_count (s : String) : Option ℕ :=
  searchFrom matchCountZeroAt s.data

/-- Characters Python `str.splitlines` treats as single-character line
boundaries (besides `\r` and `\r\n`). -/
def isLineBreak (c : Char) : Bool :=
  c = '\n' || c = '\x0b' || c = '\x0c' || c = '\x1c' || c = '\x1d' ||
  c = '\x1e' || c = '\x85' || c = '\u2028' || c = '\u2029'

/-- Python `str.splitlines` (no trailing empty line). -/
def splitLinesAux (acc : List Char) : List Char → List (List Char)
  | [] => if acc.isEmpty then [] else [acc.reverse]
  | '\r' :: '\n' :: rest => acc.reverse :: splitLinesAux [] rest
  | '\r' :: rest => acc.reverse :: splitLinesAux [] rest
  | c :: rest =>
    if isLineBreak c then acc.reverse :: splitLinesAux [] rest
    else splitLinesAux (c :: acc) rest

def splitLines (cs : List Char) : List (List Char) :=
  splitLinesAux [] cs

/-- The parsing step of `call_check_and_get_metric_and_id` from
`scaled-out-instances-group.py`: per line, the first
`count[<index>] is <int>` occurrence; the metric is the sum of the parsed
values, or `⊤` (Python `float("inf")`) when no line matched. -/
def parse_sum_count (s : String) : ℕ∞ :=
  let counts := (splitLines s.data).filterMap (fun line => searchFrom matchCountAnyAt line)
  if counts.isEmpty then ⊤ else ((counts.sum : ℕ) : ℕ∞)

/-! ## Contention Oracle Client

`execute_endpoint` (`iteration_test.py`) and `call_instance_id`
(`scaled-out-instances-group.py`) each issue a single `requests.get` with a
fixed timeout inside a `try`.  The network is modelled as a stream of attempt
outcomes (`none` = timeout / connection error); the stream index is the number
of HTTP attempts the call would make, so a call that never consults index 1
performs no retry. -/

structure HttpResult where
  status : ℕ
  body : String
deriving DecidableEq

/-- `REQUEST_TIMEOUT` (seconds), identical in both partitioner scripts. -/
def REQUEST_TIMEOUT : ℚ := 10

/-- `execute_endpoint`: one GET; `raise_for_status` turns any 4xx/5xx into a
caught exception, which (like a network failure) yields `""`. -/
def execute_endpoint (attempts : ℕ → Option HttpResult) : String :=
  match attempts 0 with
  | none => ""
  | some r => if 400 ≤ r.status ∧ r.status < 600 then "" else r.body

/-- `call_instance_id`: one GET; the attempt carries the HTTP status and the
parsed `instance_id` field (`none` = JSON parse failure or missing key).
Every failure path yields the `"unknown"` sentinel. -/
def call_instance_id (attempts : ℕ → Option (ℕ × Option String)) : String :=
  match attempts 0 with
  | none => "unknown"
  | some (st, idOpt) => if 400 ≤ st ∧ st < 600 then "unknown" else idOpt.getD "unknown"

/-! ## Per-URL Iterative Partitioner (`iteration_test.py`)

`identify_server_coverage` works on `remaining : Set[str]` initialised from
the input list.  The arbitrary `next(iter(remaining))` selection is a `pick`
parameter; the outcome of one `run_iteration_for_lock` probe barrage is an
oracle `meas : ℕ → String → Option ℕ` indexed by a running count of probe
rounds (`meas k u` is what `extract_count` returned for url `u` in round
`k`, `none` when parsing failed or the request errored). -/

structure Group where
  lock_url : String
  members : List String
deriving DecidableEq

/-- `count_value is not None and count_value >= MEMCHECK_THRESHOLD`. -/
def metricOk (v : Option ℕ) (T : ℕ) : Bool :=
  match v with
  | none => false
  | some n => T ≤ n

/-- Round-1 candidates: every *other* remaining url whose round-`k` metric
parses and meets the threshold. -/
def round1Candidates (T : ℕ) (meas : ℕ → String → Option ℕ) (k : ℕ)
    (L : String) (remaining : List String) : List String :=
  (remaining.filter (fun u => decide (u ≠ L))).filter (fun u => metricOk (meas k u) T)

/-- Round-2 verified members: candidates whose round-`(k+1)` metric again
meets the threshold. -/
def round2Verified (T : ℕ) (meas : ℕ → String → Option ℕ) (k : ℕ)
    (candidates : List String) : List String :=
  candidates.filter (fun u => metricOk (meas (k + 1) u) T)

structure CoverStepResult where
  group : Group
  newRemaining : List String
  usedRounds : ℕ

/-- One iteration of the `while remaining:` loop of `identify_server_coverage`
(after the lock instance `L` has been selected). -/
def coverStep (T : ℕ) (meas : ℕ → String → Option ℕ) (k : ℕ)
    (L : String) (remaining : List String) : CoverStepResult :=
  let check_urls := remaining.filter (fun u => decide (u ≠ L))
  if check_urls.isEmpty then
    ⟨⟨L, [L]⟩, remaining.filter (fun u => decide (u ≠ L)), 0⟩
  else
    let candidates := round1Candidates T meas k L remaining
    if candidates.isEmpty then
      ⟨⟨L, [L]⟩, remaining.filter (fun u => decide (u ≠ L)), 1⟩
    else
      let verified := round2Verified T meas k candidates
      let members := (L :: verified).dedup
      ⟨⟨L, members⟩, remaining.filter (fun u => decide (u ∉ members)), 2⟩

/-- The `while remaining:` loop, with fuel (one unit per iteration; since
every iteration removes at least the lock instance, `remaining.length` fuel
is enough). -/
def coverLoop (T : ℕ) (pick : List String → String)
    (meas : ℕ → String → Option ℕ) : ℕ → ℕ → List String → List Group
  | 0, _, _ => []
  | fuel + 1, k, remaining =>
    if remaining.isEmpty then []
    else
      let L := pick remaining
      let s := coverStep T meas k L remaining
      s.group :: coverLoop T pick meas fuel (k + s.usedRounds) s.newRemaining

/-- `identify_server_coverage`: threshold `none` aborts with `[]`; otherwise
run the loop on the deduplicated url set. -/
def identify_server_coverage (T? : Option ℕ) (pick : List String → String)
    (meas : ℕ → String → Option ℕ) (instance_urls : List String) : List Group :=
  match T? with
  | none => []
  | some T => coverLoop T pick meas instance_urls.dedup.length 0 instance_urls.dedup

/-! ## Single-URL Partitioner (`scaled-out-instances-group.py`)

`identify_server_sharing` repeatedly locks via the shared URL, attributes the
lock via `/instance_id`, then aggregates a batch of `/check` measurements.
Oracles: `lockId k` is the attributed lock handler of iteration attempt `k`,
`meas k` the batch of `(instance_id, sum_count)` measurement results of that
attempt. -/

/-- The dict update `inst_metric[id] = v` / `max(inst_metric[id], v)`,
on an insertion-ordered association list (Python dict semantics). -/
def updateMetric : List (String × ℕ∞) → String → ℕ∞ → List (String × ℕ∞)
  | [], id, v => [(id, v)]
  | (j, w) :: rest, id, v =>
    if j = id then (j, max w v) :: rest else (j, w) :: updateMetric rest id v

/-- The body of the measurement loop in step 3 of `identify_server_sharing`:
skip measurements whose id is no longer in `remaining` and unmeasurable
(`sum_count == float("inf")`) ones; fold the rest into the metric map. -/
def aggStep (remaining : List String) (acc : List (String × ℕ∞))
    (m : String × ℕ∞) : List (String × ℕ∞) :=
  if m.1 ∈ remaining ∧ m.2 ≠ ⊤ then updateMetric acc m.1 m.2 else acc

/-- Step 3 of `identify_server_sharing`: fold the measurement batch into the
per-instance metric map. -/
def buildMetricMap (remaining : List String) (ms : List (String × ℕ∞)) :
    List (String × ℕ∞) :=
  ms.foldl (aggStep remaining) []

/-- Steps 3–5 of one committed iteration: aggregate, form the group
(`lock` plus every other mapped instance at or above the threshold), and
discard the group from `remaining`. -/
def shareStep (T : ℕ) (ms : List (String × ℕ∞)) (lockId : String)
    (remaining : List String) : List String × List String :=
  let instMetric := buildMetricMap remaining ms
  let group := lockId ::
    (instMetric.filter (fun p => decide (p.1 ≠ lockId) && decide ((T : ℕ∞) ≤ p.2))).map Prod.fst
  (group, remaining.filter (fun u => decide (u ∉ group)))

/-- The `while remaining:` loop of `identify_server_sharing`.  A `"unknown"`
or already-grouped lock attribution retries the iteration without mutating
state; since the source bounds neither these retries nor the loop, the
embedding spends one fuel unit per attempt and returns `none` on exhaustion
with instances still ungrouped. -/
def shareLoop (T : ℕ) (lockId : ℕ → String) (meas : ℕ → List (String × ℕ∞)) :
    ℕ → ℕ → List String → Option (List (List String))
  | 0, _, remaining => if remaining.isEmpty then some [] else none
  | fuel + 1, k, remaining =>
    if remaining.isEmpty then some []
    else
      let I := lockId k
      if I = "unknown" then shareLoop T lockId meas fuel (k + 1) remaining
      else if I ∉ remaining then shareLoop T lockId meas fuel (k + 1) remaining
      else
        let s := shareStep T (meas k) I remaining
        (shareLoop T lockId meas fuel (k + 1) s.2).map (s.1 :: ·)

/-- `identify_server_sharing`: threshold `none` aborts with the empty group
list; otherwise run the loop on the deduplicated id set. -/
def identify_server_sharing (T? : Option ℕ) (lockId : ℕ → String)
    (meas : ℕ → List (String × ℕ∞)) (fuel : ℕ) (all_instance_ids : List String) :
    Option (List (List String)) :=
  match T? with
  | none => some []
  | some T => shareLoop T lockId meas fuel 0 all_instance_ids.dedup

/-! ## Binary-Search Localizer (`target_victim_locator.py`)

Latencies are rationals; a failed victim request records `⊤`
(`float("inf")`).  `lat k` is the list of per-run latency observations of the
`k`-th victim probe barrage. -/

/-- Strip the `⊤` sentinel. -/
def untopQ : WithTop ℚ → Option ℚ
  | ⊤ => none
  | (q : ℚ) => some q

/-- `statistics.median` on a nonempty list: sort, take the middle element,
or the mean of the two middle elements. -/
def pymedian (l : List ℚ) : ℚ :=
  let s := l.insertionSort (· ≤ ·)
  let n := l.length
  if n % 2 = 1 then s.getD (n / 2) 0
  else (s.getD (n / 2 - 1) 0 + s.getD (n / 2) 0) / 2

/-- `measure_victim_latency`: failed runs (`⊤`) are dropped; if every run
failed the result is `⊤`, otherwise the median of the finite latencies. -/
def measure_victim_latency (lats : List (WithTop ℚ)) : WithTop ℚ :=
  let finite := lats.filterMap untopQ
  if finite.isEmpty then ⊤ else ((pymedian finite : ℚ) : WithTop ℚ)

/-- `is_above_threshold`: `probed_median >= latency_threshold`
(`inf >= t` is true). -/
def is_above_threshold (probed_median : WithTop ℚ) (latency_threshold : ℚ) : Bool :=
  decide ((latency_threshold : WithTop ℚ) ≤ probed_median)

/-- The `for idx, cpu_set in enumerate(cpu_sets)` scan of
`find_candidate_set`: empty instance lists are skipped without probing;
the first probed set whose median meets the threshold is returned. -/
def findCandAux (T : ℚ) (lat : ℕ → List (WithTop ℚ)) :
    ℕ → List (List String) → Int
  | _, [] => -1
  | idx, instances :: rest =>
    if instances.isEmpty then findCandAux T lat (idx + 1) rest
    else if is_above_threshold (measure_victim_latency (lat idx)) T then (idx : Int)
    else findCandAux T lat (idx + 1) rest

/-- `find_candidate_set` (`cpu_sets` reduced to their instance lists):
index of the candidate set, or the `-1` failure sentinel. -/
def find_candidate_set (T : ℚ) (lat : ℕ → List (WithTop ℚ))
    (cpu_sets : List (List String)) : Int :=
  findCandAux T lat 0 cpu_sets

/-- The `while len(candidates) > 1:` loop of `binary_search_localization`,
with fuel (the candidate count at least halves each step, so
`candidates.length` fuel is enough).  `step` mirrors the source's round
counter; the pair returned is (reported instance, total rounds). -/
def bsearchAux (T : ℚ) (lat : ℕ → List (WithTop ℚ)) :
    ℕ → List String → ℕ → String × ℕ
  | 0, candidates, step => (candidates.headD "", step)
  | fuel + 1, candidates, step =>
    if candidates.length ≤ 1 then (candidates.headD "", step)
    else
      let mid := candidates.length / 2
      let left := candidates.take mid
      let right := candidates.drop mid
      if is_above_threshold (measure_victim_latency (lat (step + 1))) T then
        bsearchAux T lat fuel left (step + 1)
      else
        bsearchAux T lat fuel right (step + 1)

/-- `binary_search_localization` over a candidate instance list. -/
def binary_search_localization (T : ℚ) (lat : ℕ → List (WithTop ℚ))
    (instances : List String) : String × ℕ :=
  bsearchAux T lat instances.length instances 0

/-! ## Auxiliary definitions

Concrete oracle instantiations used by the witness theorems, the reference
association-list lookup used to state aggregation properties, and the
spec-side pattern predicates that render the two regular expressions as
explicit decompositions (`TailPattern` is `\s+is\s+\d+`; `AnyCountAt` /
`ZeroCountAt` put `count\[<idx>\]` in front of it at the start of the
text; `LineHasCountAny` / `HasCountZero` allow an arbitrary prefix, i.e.
a match *somewhere* in the text, which is what `re.search` looks for). -/

/-- `fun l => l.headD ""` is a valid instantiation of the arbitrary
`next(iter(remaining))` selection. -/
def headPick (l : List String) : String :=
  l.headD ""

/-- Attempt stream whose first attempt returns HTTP 503 and whose second
attempt would succeed with body `"ok"`. -/
def retryThenOk : ℕ → Option HttpResult :=
  fun n => if n = 0 then some ⟨503, ""⟩ else some ⟨200, "ok"⟩

/-- Attempt stream returning HTTP 503 on every attempt. -/
def always503 : ℕ → Option HttpResult :=
  fun _ => some ⟨503, ""⟩

/-- Attempt stream whose first attempt succeeds and whose later attempts
would fail. -/
def okThenCrash : ℕ → Option HttpResult :=
  fun n => if n = 0 then some ⟨200, "ok"⟩ else none

/-- Attempt stream succeeding on every attempt. -/
def alwaysOk : ℕ → Option HttpResult :=
  fun _ => some ⟨200, "ok"⟩

/-- Reference lookup in an association list (Python `inst_metric[id]`). -/
def lookupM : List (String × ℕ∞) → String → Option ℕ∞
  | [], _ => none
  | (j, w) :: rest, id => if j = id then some w else lookupM rest id

/-- The metrics of a batch that the aggregation loop actually folds into the
map for a given id: measurements attributed to `id`, with `id` still in
`remaining` and a finite metric. -/
def keptMetrics (remaining : List String) (id : String)
    (ms : List (String × ℕ∞)) : List ℕ∞ :=
  ms.filterMap (fun m =>
    if m.1 = id ∧ m.1 ∈ remaining ∧ m.2 ≠ ⊤ then some m.2 else none)

/-- One max-fold step on an optional running maximum. -/
def maxOpt (o : Option ℕ∞) (v : ℕ∞) : Option ℕ∞ :=
  some (match o with
    | none => v
    | some w => max w v)

/-- Round oracle for the C5 witness. -/
def measC5 : ℕ → String → Option ℕ := fun k u =>
  if k = 0 then (if u = "b" then some 50 else if u = "c" then some 20 else none)
  else if k = 1 then (if u = "b" then some 60 else none) else none

/-- Lock-attribution oracle that never identifies the handling instance. -/
def unknownLock : ℕ → String :=
  fun _ => "unknown"

/-- Measurement oracle returning an empty batch. -/
def noMeas : ℕ → List (String × ℕ∞) :=
  fun _ => []

/-- With a permanently-unknown lock attribution, the single-URL partitioner
run on `["a"]` never finishes, whatever fuel it is given. -/
def shareRunNeverTerminates : Prop :=
  ∀ fuel k, shareLoop 5 unknownLock noMeas fuel k ["a"] = none

/-- Victim-latency oracle on which every probe run fails: the median is `⊤`,
which always passes the threshold, so the left half is kept in every step. -/
def latAllFail : ℕ → List (WithTop ℚ) :=
  fun _ => [⊤]

/-- Victim-latency oracle with a constant finite latency of 0 (below any
positive threshold), so the right half is kept in every step. -/
def latZero : ℕ → List (WithTop ℚ) :=
  fun _ => [((0 : ℚ) : WithTop ℚ)]

/-- Probe oracle realising the worked example of spec §8 (threshold 1000,
lock `"a"`, Round-1 metrics b:1500 c:200 d:1100, Round-2 metrics b:1400
d:50). -/
def measA : ℕ → String → Option ℕ
  | 0, "b" => some 1500
  | 0, "c" => some 200
  | 0, "d" => some 1100
  | 1, "b" => some 1400
  | 1, "d" => some 50
  | _, _ => none

/-- Lock-attribution oracle for the single-URL witness run. -/
def lockIdW : ℕ → String
  | 0 => "unknown"
  | 1 => "instance-A"
  | 2 => "instance-C"
  | _ => "x"

/-- Measurement batches for the single-URL witness run. -/
def measW : ℕ → List (String × ℕ∞)
  | 1 => [("instance-B", (5 : ℕ∞)), ("instance-C", ⊤), ("instance-B", (90 : ℕ∞)),
          ("zzz", (99 : ℕ∞))]
  | _ => []

/-- One-or-more whitespace characters (`\s+`). -/
def SpacePlus (l : List Char) : Prop :=
  l ≠ [] ∧ ∀ c ∈ l, pyIsSpace c = true

/-- One-or-more digits (`\d+`). -/
def DigitPlus (l : List Char) : Prop :=
  l ≠ [] ∧ ∀ c ∈ l, c.isDigit = true

/-- `\s+is\s+(\d+)` at the start of the text, anything after. -/
def TailPattern (cs : List Char) : Prop :=
  ∃ sp1 sp2 val post, SpacePlus sp1 ∧ SpacePlus sp2 ∧ DigitPlus val ∧
    cs = sp1 ++ "is".toList ++ sp2 ++ val ++ post

/-- `count\[\d+\]\s+is\s+(\d+)` at the start of the text. -/
def AnyCountAt (cs : List Char) : Prop :=
  ∃ idx rest, DigitPlus idx ∧ TailPattern rest ∧
    cs = "count[".toList ++ idx ++ [']'] ++ rest

/-- `count\[0\]\s+is\s+(\d+)` at the start of the text. -/
def ZeroCountAt (cs : List Char) : Prop :=
  ∃ rest, TailPattern rest ∧ cs = "count[0]".toList ++ rest

/-- `count\[\d+\]\s+is\s+(\d+)` occurring anywhere in the text. -/
def LineHasCountAny (cs : List Char) : Prop :=
  ∃ pre suf, cs = pre ++ suf ∧ AnyCountAt suf

/-- `count\[0\]\s+is\s+(\d+)` occurring anywhere in the text. -/
def HasCountZero (cs : List Char) : Prop :=
  ∃ pre suf, cs = pre ++ suf ∧ ZeroCountAt suf

/-! ## General helper lemmas -/

theorem length_filter_lt {α : Type} {p : α → Bool} {l : List α} {a : α}
    (ha : a ∈ l) (hpa : p a = false) : (l.filter p).length < l.length := by
  induction l with
  | nil => cases ha
  | cons b bs ih =>
    rcases List.mem_cons.mp ha with rfl | hmem
    · rw [List.filter_cons_of_neg (by simp [hpa])]
      exact Nat.lt_succ_of_le (List.length_filter_le p bs)
    · by_cases hb : p b
      · rw [List.filter_cons_of_pos hb]
        simpa using ih hmem
      · rw [List.filter_cons_of_neg (by simpa using hb)]
        exact Nat.lt_succ_of_le (Nat.le_of_lt (ih hmem))

theorem headD_mem {α : Type} {l : List α} (h : l ≠ []) (d : α) : l.headD d ∈ l := by
  cases l with
  | nil => exact absurd rfl h
  | cons a as => simp

theorem headPick_mem : ∀ l : List String, l ≠ [] → headPick l ∈ l :=
  fun _ h => headD_mem h ""

/-! ## Claim C9 — unset threshold aborts with no output -/

/-- C9: with the threshold unset (`None`), both partitioner variants abort
immediately with an empty result; the result does not depend on any oracle
(no network observation can influence it), and no group is formed. -/
theorem c9_unset_threshold_aborts :
    (∀ (pick : List String → String) (meas : ℕ → String → Option ℕ)
      (urls : List String), identify_server_coverage none pick meas urls = []) ∧
    (∀ (lockId : ℕ → String) (meas : ℕ → List (String × ℕ∞)) (fuel : ℕ)
      (ids : List String), identify_server_sharing none lockId meas fuel ids = some []) :=
  ⟨fun _ _ _ => rfl, fun _ _ _ _ => rfl⟩

/-! ## Claim C8 — oracle client retry behaviour (corrected) -/

/-- C8 counterexample: a 503 first attempt is *not* retried — the call
returns the `""` failure sentinel even though a retry would have received
`"ok"`, and the outcome is identical to the stream where every attempt
fails with 503.  This refutes the claimed automatic retry with backoff on
the status set 429/500/502/503/504. -/
theorem c8_counterexample :
    execute_endpoint retryThenOk = "" ∧
    execute_endpoint retryThenOk = execute_endpoint always503 :=
  ⟨rfl, rfl⟩

/-- C8 amended: each oracle-client call applies the explicit per-request
timeout constant but performs exactly one HTTP attempt: the outcome is a
function of the first attempt alone (so there is no retry, with or without
backoff), and every failure — connection error or any 4xx/5xx status,
including 429/500/502/503/504 — maps to the local sentinel (`""` for
`execute_endpoint`, `"unknown"` for `call_instance_id`). -/
theorem c8_single_attempt :
    REQUEST_TIMEOUT = 10 ∧
    (∀ a b : ℕ → Option HttpResult, a 0 = b 0 →
      execute_endpoint a = execute_endpoint b) ∧
    (∀ (a : ℕ → Option HttpResult) (r : HttpResult), a 0 = some r →
      400 ≤ r.status → r.status < 600 → execute_endpoint a = "") ∧
    (∀ a : ℕ → Option HttpResult, a 0 = none → execute_endpoint a = "") ∧
    (∀ a b : ℕ → Option (ℕ × Option String), a 0 = b 0 →
      call_instance_id a = call_instance_id b) ∧
    (∀ a : ℕ → Option (ℕ × Option String), a 0 = none →
      call_instance_id a = "unknown") := by
  refine ⟨rfl, ?_, ?_, ?_, ?_, ?_⟩
  · intro a b h
    simp only [execute_endpoint, h]
  · intro a r h h4 h6
    simp only [execute_endpoint, h]
    rw [if_pos ⟨h4, h6⟩]
  · intro a h
    simp only [execute_endpoint, h]
  · intro a b h
    simp only [call_instance_id, h]
  · intro a h
    simp only [call_instance_id, h]

/-- C8 witness: the single-attempt theorem applied to concrete streams. -/
theorem c8_witness :
    execute_endpoint okThenCrash = execute_endpoint alwaysOk ∧
    execute_endpoint always503 = "" :=
  ⟨c8_single_attempt.2.1 okThenCrash alwaysOk rfl,
   c8_single_attempt.2.2.1 always503 ⟨503, ""⟩ rfl (by decide) (by decide)⟩

/-! ## Claim C5 — Round-2 reverification in the per-URL partitioner -/

/-- C5: in an iteration that reaches Round 2 (the Round-1 candidate list is
nonempty), the verified members form a sublist of the Round-1 candidates,
the committed group is exactly the lock instance plus the verified members,
the new remaining set is exactly the old one minus the committed group, and
every candidate that failed reverification is still in the remaining set. -/
theorem c5_reverification_filter (T : ℕ) (meas : ℕ → String → Option ℕ) (k : ℕ)
    (L : String) (remaining : List String)
    (hc : round1Candidates T meas k L remaining ≠ []) :
    round2Verified T meas k (round1Candidates T meas k L remaining) ⊆
      round1Candidates T meas k L remaining ∧
    (∀ x, x ∈ (coverStep T meas k L remaining).group.members ↔
      x = L ∨ x ∈ round2Verified T meas k (round1Candidates T meas k L remaining)) ∧
    (∀ x, x ∈ (coverStep T meas k L remaining).newRemaining ↔
      x ∈ remaining ∧ x ∉ (coverStep T meas k L remaining).group.members) ∧
    (∀ x ∈ round1Candidates T meas k L remaining,
      x ∉ round2Verified T meas k (round1Candidates T meas k L remaining) →
      x ∈ (coverStep T meas k L remaining).newRemaining) := by
  have hcheck : ((remaining.filter (fun u => decide (u ≠ L))).isEmpty) = false := by
    rcases h : (remaining.filter (fun u => decide (u ≠ L))).isEmpty with _ | _
    · rfl
    · exfalso
      apply hc
      rw [round1Candidates, List.isEmpty_iff.mp h, List.filter_nil]
  have hcand : (round1Candidates T meas k L remaining).isEmpty = false := by
    rcases h : (round1Candidates T meas k L remaining).isEmpty with _ | _
    · rfl
    · exact absurd (List.isEmpty_iff.mp h) hc
  have hstep : coverStep T meas k L remaining =
      ⟨⟨L, (L :: round2Verified T meas k (round1Candidates T meas k L remaining)).dedup⟩,
        remaining.filter (fun u => decide
          (u ∉ (L :: round2Verified T meas k
            (round1Candidates T meas k L remaining)).dedup)), 2⟩ := by
    rw [coverStep]
    simp only [hcheck, Bool.false_eq_true, if_false, round1Candidates] at *
    simp only [hcand, Bool.false_eq_true, if_false, round1Candidates]
  have hmem : ∀ x, x ∈ (coverStep T meas k L remaining).group.members ↔
      x = L ∨ x ∈ round2Verified T meas k (round1Candidates T meas k L remaining) := by
    intro x
    rw [hstep]
    simp [List.mem_dedup]
  have hnewmem : ∀ x, x ∈ (coverStep T meas k L remaining).newRemaining ↔
      x ∈ remaining ∧ x ∉ (coverStep T meas k L remaining).group.members := by
    intro x
    rw [hstep]
    simp only [List.mem_filter, decide_eq_true_iff]
  refine ⟨?_, hmem, hnewmem, ?_⟩
  · exact fun x hx => List.mem_of_mem_filter hx
  · intro x hx hnv
    have hx1 : x ∈ (remaining.filter (fun u => decide (u ≠ L))).filter
        (fun u => metricOk (meas k u) T) := hx
    have hx2 : x ∈ remaining.filter (fun u => decide (u ≠ L)) :=
      List.mem_of_mem_filter hx1
    have hxr : x ∈ remaining := List.mem_of_mem_filter hx2
    have hxL : x ≠ L := by simpa using (List.mem_filter.mp hx2).2
    rw [hnewmem]
    refine ⟨hxr, ?_⟩
    intro hmem'
    rcases (hmem x).mp hmem' with rfl | hv
    · exact hxL rfl
    · exact hnv hv

/-! ## Claims C4 and C10 — max-aggregation of the measurement batch -/

theorem lookupM_updateMetric_self (acc : List (String × ℕ∞)) (id : String)
    (v : ℕ∞) : lookupM (updateMetric acc id v) id = maxOpt (lookupM acc id) v := by
  induction acc with
  | nil => simp [updateMetric, lookupM, maxOpt]
  | cons p rest ih =>
    obtain ⟨j, w⟩ := p
    by_cases hj : j = id
    · subst hj
      simp [updateMetric, lookupM, maxOpt]
    · simp [updateMetric, lookupM, hj, ih]

theorem lookupM_updateMetric_other (acc : List (String × ℕ∞)) (id j : String)
    (v : ℕ∞) (hj : j ≠ id) :
    lookupM (updateMetric acc id v) j = lookupM acc j := by
  induction acc with
  | nil =>
    show (if id = j then some v else none) = none
    rw [if_neg (fun h => hj h.symm)]
  | cons p rest ih =>
    obtain ⟨i, w⟩ := p
    by_cases hi : i = id
    · subst hi
      simp only [updateMetric, if_pos rfl, lookupM]
      rw [if_neg (fun h => hj h.symm), if_neg (fun h => hj h.symm)]
    · simp only [updateMetric, if_neg hi, lookupM]
      by_cases hij : i = j
      · simp [hij]
      · simp [hij, ih]

theorem lookupM_foldl_aggStep (remaining : List String) (id : String) :
    ∀ (ms : List (String × ℕ∞)) (acc : List (String × ℕ∞)),
      lookupM (ms.foldl (aggStep remaining) acc) id =
        (keptMetrics remaining id ms).foldl maxOpt (lookupM acc id) := by
  intro ms
  induction ms with
  | nil => intro acc; simp [keptMetrics]
  | cons m rest ih =>
    intro acc
    obtain ⟨i, v⟩ := m
    by_cases hkeep : i ∈ remaining ∧ v ≠ ⊤
    · by_cases hid : i = id
      · subst hid
        have hk : keptMetrics remaining i ((i, v) :: rest) =
            v :: keptMetrics remaining i rest := by
          simp [keptMetrics, List.filterMap_cons, hkeep.1, hkeep.2]
        rw [List.foldl_cons, hk, List.foldl_cons]
        have : aggStep remaining acc (i, v) = updateMetric acc i v := by
          simp [aggStep, hkeep.1, hkeep.2]
        rw [this, ih, lookupM_updateMetric_self]
      · have hk : keptMetrics remaining id ((i, v) :: rest) =
            keptMetrics remaining id rest := by
          simp [keptMetrics, List.filterMap_cons, hid]
        rw [List.foldl_cons, hk]
        have : aggStep remaining acc (i, v) = updateMetric acc i v := by
          simp [aggStep, hkeep.1, hkeep.2]
        rw [this, ih, lookupM_updateMetric_other acc i id v (Ne.symm hid)]
    · have hk : keptMetrics remaining id ((i, v) :: rest) =
          keptMetrics remaining id rest := by
        simp only [keptMetrics, List.filterMap_cons]
        rw [if_neg]
        rintro ⟨_, h2, h3⟩
        exact hkeep ⟨h2, h3⟩
      rw [List.foldl_cons, hk]
      have : aggStep remaining acc (i, v) = acc := by
        show (if i ∈ remaining ∧ v ≠ ⊤ then updateMetric acc i v else acc) = acc
        exact if_neg hkeep
      rw [this, ih]

theorem foldl_max_mem (l : List ℕ∞) (w : ℕ∞) :
    l.foldl max w = w ∨ l.foldl max w ∈ l := by
  induction l generalizing w with
  | nil => simp
  | cons x xs ih =>
    rw [List.foldl_cons]
    rcases ih (max w x) with h | h
    · rcases max_choice w x with hm | hm
      · exact Or.inl (h.trans hm)
      · refine Or.inr ?_
        rw [h, hm]
        exact List.mem_cons_self x xs
    · exact Or.inr (List.mem_cons_of_mem x h)

theorem le_foldl_max (l : List ℕ∞) (w : ℕ∞) :
    w ≤ l.foldl max w ∧ ∀ x ∈ l, x ≤ l.foldl max w := by
  induction l generalizing w with
  | nil => simp
  | cons y ys ih =>
    rw [List.foldl_cons]
    obtain ⟨h1, h2⟩ := ih (max w y)
    refine ⟨le_trans (le_max_left w y) h1, ?_⟩
    intro x hx
    rcases List.mem_cons.mp hx with rfl | hx'
    · exact le_trans (le_max_right w x) h1
    · exact h2 x hx'

theorem lookupM_buildMetricMap (remaining : List String) (id : String)
    (ms : List (String × ℕ∞)) :
    lookupM (buildMetricMap remaining ms) id =
      match keptMetrics remaining id ms with
      | [] => none
      | w :: l => some (l.foldl max w) := by
  rw [buildMetricMap, lookupM_foldl_aggStep]
  have hbase : lookupM ([] : List (String × ℕ∞)) id = none := rfl
  rw [hbase]
  rcases h : keptMetrics remaining id ms with _ | ⟨w, l⟩
  · rfl
  · rw [List.foldl_cons]
    show List.foldl maxOpt (some w) l = some (l.foldl max w)
    clear h
    induction l generalizing w with
    | nil => rfl
    | cons x xs ih =>
      rw [List.foldl_cons, List.foldl_cons]
      exact ih (max w x)

/-- C4: within one probe batch, the aggregated value for an instance id is
the maximum of the metrics the loop kept for that id (it is `some v` exactly
when `v` is a kept metric that bounds every kept metric); consequently,
appending a further measurement for an already-measured id with a metric
not exceeding the current aggregate leaves the aggregate unchanged. -/
theorem c4_max_aggregation (remaining : List String) (ms : List (String × ℕ∞))
    (id : String) :
    (∀ v, lookupM (buildMetricMap remaining ms) id = some v ↔
      (v ∈ keptMetrics remaining id ms ∧
        ∀ w ∈ keptMetrics remaining id ms, w ≤ v)) ∧
    (∀ v w, lookupM (buildMetricMap remaining ms) id = some v → w ≤ v →
      lookupM (buildMetricMap remaining (ms ++ [(id, w)])) id = some v) := by
  have hchar : ∀ (ms' : List (String × ℕ∞)) (v : ℕ∞),
      lookupM (buildMetricMap remaining ms') id = some v ↔
        (v ∈ keptMetrics remaining id ms' ∧
          ∀ w ∈ keptMetrics remaining id ms', w ≤ v) := by
    intro ms' v
    rw [lookupM_buildMetricMap]
    rcases h : keptMetrics remaining id ms' with _ | ⟨w0, l⟩
    · simp
    · constructor
      · intro hv
        have hv' : l.foldl max w0 = v := by
          simpa using hv
        constructor
        · rcases foldl_max_mem l w0 with hm | hm
          · rw [← hv', hm]
            exact List.mem_cons_self w0 l
          · rw [← hv']
            exact List.mem_cons_of_mem w0 hm
        · intro w hw
          rcases List.mem_cons.mp hw with rfl | hw'
          · rw [← hv']
            exact (le_foldl_max l w).1
          · rw [← hv']
            exact (le_foldl_max l w0).2 w hw'
      · rintro ⟨hvmem, hub⟩
        have h1 : l.foldl max w0 ≤ v := by
          rcases foldl_max_mem l w0 with hm | hm
          · rw [hm]
            exact hub w0 (List.mem_cons_self w0 l)
          · exact hub _ (List.mem_cons_of_mem w0 hm)
        have h2 : v ≤ l.foldl max w0 := by
          rcases List.mem_cons.mp hvmem with rfl | hv'
          · exact (le_foldl_max l v).1
          · exact (le_foldl_max l w0).2 v hv'
        simp [le_antisymm h1 h2]
  refine ⟨hchar ms, ?_⟩
  intro v w hv hw
  obtain ⟨hvmem, hub⟩ := (hchar ms v).mp hv
  apply (hchar (ms ++ [(id, w)]) v).mpr
  have happ : keptMetrics remaining id (ms ++ [(id, w)]) =
      keptMetrics remaining id ms ++ keptMetrics remaining id [(id, w)] := by
    simp [keptMetrics, List.filterMap_append]
  rw [happ]
  refine ⟨List.mem_append_left _ hvmem, ?_⟩
  intro x hx
  rcases List.mem_append.mp hx with hx' | hx'
  · exact hub x hx'
  · have hxw : x = w := by
      by_cases hkeep : id ∈ remaining ∧ w ≠ ⊤
      · have hsing : keptMetrics remaining id [(id, w)] = [w] := by
          simp [keptMetrics, hkeep.1, hkeep.2]
        rw [hsing] at hx'
        simpa using hx'
      · have hnil : keptMetrics remaining id [(id, w)] = [] := by
          simp only [keptMetrics, List.filterMap_cons, List.filterMap_nil]
          rw [if_neg]
          rintro ⟨_, h2, h3⟩
          exact hkeep ⟨h2, h3⟩
        rw [hnil] at hx'
        cases hx'
    rw [hxw]
    exact hw

/-- C4 witness: max aggregation on a concrete batch, and appending a lower
measurement for the same id leaves the aggregate at 9. -/
theorem c4_witness :
    lookupM (buildMetricMap ["a"] [("a", (5 : ℕ∞)), ("a", 9)]) "a" = some 9 ∧
    lookupM (buildMetricMap ["a"] ([("a", (5 : ℕ∞)), ("a", 9)] ++ [("a", 3)])) "a" =
      some 9 :=
  ⟨((c4_max_aggregation ["a"] [("a", (5 : ℕ∞)), ("a", 9)] "a").1 9).mpr
      ⟨by decide, by decide⟩,
   (c4_max_aggregation ["a"] [("a", (5 : ℕ∞)), ("a", 9)] "a").2 9 3
      (by decide) (by decide)⟩

theorem mem_updateMetric {acc : List (String × ℕ∞)} {id : String} {v : ℕ∞}
    {p : String × ℕ∞} (hp : p ∈ updateMetric acc id v) :
    p ∈ acc ∨ (p.1 = id ∧ (p.2 = v ∨ ∃ w, (id, w) ∈ acc ∧ p.2 = max w v)) := by
  obtain ⟨a, b⟩ := p
  induction acc with
  | nil =>
    simp only [updateMetric, List.mem_singleton, Prod.mk.injEq] at hp
    exact Or.inr ⟨hp.1, Or.inl hp.2⟩
  | cons q rest ih =>
    obtain ⟨j, w⟩ := q
    by_cases hj : j = id
    · subst hj
      simp only [updateMetric, eq_self_iff_true, if_true, List.mem_cons,
        Prod.mk.injEq] at hp
      rcases hp with ⟨h1, h2⟩ | hp
      · exact Or.inr ⟨h1, Or.inr ⟨w, List.mem_cons_self _ _, h2⟩⟩
      · exact Or.inl (List.mem_cons_of_mem _ hp)
    · simp only [updateMetric, if_neg hj, List.mem_cons] at hp
      rcases hp with heq | hp
      · refine Or.inl ?_
        rw [heq]
        exact List.mem_cons_self _ _
      · rcases ih hp with h | ⟨h1, h2⟩
        · exact Or.inl (List.mem_cons_of_mem _ h)
        · refine Or.inr ⟨h1, ?_⟩
          rcases h2 with h2 | ⟨w', hw', hmax⟩
          · exact Or.inl h2
          · exact Or.inr ⟨w', List.mem_cons_of_mem _ hw', hmax⟩

theorem buildMetricMap_mem_inv (remaining : List String)
    (ms : List (String × ℕ∞)) :
    ∀ p ∈ buildMetricMap remaining ms, p.1 ∈ remaining ∧ p.2 ≠ ⊤ := by
  rw [buildMetricMap]
  suffices h : ∀ (ms' acc : List (String × ℕ∞)),
      (∀ p ∈ acc, p.1 ∈ remaining ∧ p.2 ≠ ⊤) →
      ∀ p ∈ ms'.foldl (aggStep remaining) acc, p.1 ∈ remaining ∧ p.2 ≠ ⊤ by
    exact h ms [] (by rintro p ⟨⟩)
  intro ms'
  induction ms' with
  | nil => intro acc hacc; exact hacc
  | cons m rest ih =>
    intro acc hacc
    rw [List.foldl_cons]
    apply ih
    obtain ⟨i, v⟩ := m
    by_cases hkeep : i ∈ remaining ∧ v ≠ ⊤
    · have hstep : aggStep remaining acc (i, v) = updateMetric acc i v := by
        show (if i ∈ remaining ∧ v ≠ ⊤ then updateMetric acc i v else acc) = _
        exact if_pos hkeep
      rw [hstep]
      intro p hp
      rcases mem_updateMetric hp with h | ⟨h1, h2⟩
      · exact hacc p h
      · refine ⟨h1 ▸ hkeep.1, ?_⟩
        rcases h2 with h2 | ⟨w, hw, hmax⟩
        · exact h2 ▸ hkeep.2
        · rcases max_choice w v with hm | hm
          · rw [hmax, hm]
            exact (hacc (i, w) hw).2
          · rw [hmax, hm]
            exact hkeep.2
    · have hstep : aggStep remaining acc (i, v) = acc := by
        show (if i ∈ remaining ∧ v ≠ ⊤ then updateMetric acc i v else acc) = acc
        exact if_neg hkeep
      rw [hstep]
      exact hacc

/-- C10: every entry of the aggregated metric map has its key in the current
`RemainingSet` and a finite value — unmeasurable (`⊤`) results and results
attributed outside `RemainingSet` (in particular the `"unknown"` sentinel
whenever it is not itself a listed instance) are discarded before the
max-reduction; consequently a group formed by `shareStep` contains, besides
the lock instance, only instances of `RemainingSet` whose aggregated metric
is finite and at least the threshold. -/
theorem c10_aggregation_discards (remaining : List String)
    (ms : List (String × ℕ∞)) :
    (∀ p ∈ buildMetricMap remaining ms, p.1 ∈ remaining ∧ p.2 ≠ ⊤) ∧
    (∀ (T : ℕ) (lockId : String),
      ∀ x ∈ (shareStep T ms lockId remaining).1,
        x = lockId ∨ (x ∈ remaining ∧
          ∃ v, (x, v) ∈ buildMetricMap remaining ms ∧ v ≠ ⊤ ∧ (T : ℕ∞) ≤ v)) := by
  refine ⟨buildMetricMap_mem_inv remaining ms, ?_⟩
  intro T lockId x hx
  rcases List.mem_cons.mp hx with rfl | hx'
  · exact Or.inl rfl
  · obtain ⟨p, hp, rfl⟩ := List.mem_map.mp hx'
    have hfil := List.mem_filter.mp hp
    have hinv := buildMetricMap_mem_inv remaining ms p hfil.1
    have hcond := hfil.2
    simp only [Bool.and_eq_true, decide_eq_true_iff] at hcond
    exact Or.inr ⟨hinv.1, p.2, by simpa using hfil.1, hinv.2, hcond.2⟩

/-- C10 witness: the invariants applied to a concrete batch that contains an
unmeasurable result, an unattributable (`"unknown"`) result, and a stale id. -/
theorem c10_witness :
    ((("b" : String), (9 : ℕ∞)) ∈
        buildMetricMap ["a", "b"]
          [("a", (5 : ℕ∞)), ("unknown", 7), ("b", ⊤), ("b", 9), ("stale", 3)] →
      ("b" : String) ∈ ["a", "b"] ∧ (9 : ℕ∞) ≠ ⊤) ∧
    (("b" : String) ∈
        (shareStep 6
          [("a", (5 : ℕ∞)), ("unknown", 7), ("b", ⊤), ("b", 9), ("stale", 3)]
          "a" ["a", "b"]).1 →
      ("b" : String) = "a" ∨ (("b" : String) ∈ ["a", "b"] ∧
        ∃ v, (("b" : String), v) ∈
            buildMetricMap ["a", "b"]
              [("a", (5 : ℕ∞)), ("unknown", 7), ("b", ⊤), ("b", 9), ("stale", 3)] ∧
          v ≠ ⊤ ∧ ((6 : ℕ) : ℕ∞) ≤ v)) :=
  ⟨fun h => (c10_aggregation_discards ["a", "b"]
      [("a", (5 : ℕ∞)), ("unknown", 7), ("b", ⊤), ("b", 9), ("stale", 3)]).1
      ("b", (9 : ℕ∞)) h,
   fun h => (c10_aggregation_discards ["a", "b"]
      [("a", (5 : ℕ∞)), ("unknown", 7), ("b", ⊤), ("b", 9), ("stale", 3)]).2
      6 "a" "b" h⟩

/-- C5 witness: the reverification theorem applied to a concrete iteration
in which candidate `"c"` fails Round 2 and stays in the remaining set. -/
theorem c5_witness :
    ("c" ∈ (coverStep 10 measC5 0 "a" ["a", "b", "c"]).newRemaining ↔
      "c" ∈ ["a", "b", "c"] ∧
        "c" ∉ (coverStep 10 measC5 0 "a" ["a", "b", "c"]).group.members) :=
  (c5_reverification_filter 10 measC5 0 "a" ["a", "b", "c"] (by decide)).2.2.1 "c"

/-! ## Claim C7 — monotonic shrink and stale-lock retries (corrected) -/

theorem coverStep_shrinks (T : ℕ) (meas : ℕ → String → Option ℕ) (k : ℕ)
    (L : String) (remaining : List String) (hL : L ∈ remaining) :
    (coverStep T meas k L remaining).newRemaining.length < remaining.length := by
  have hfalse : (fun u => decide (u ≠ L)) L = false := by simp
  rw [coverStep]
  dsimp only
  split
  · exact length_filter_lt hL hfalse
  · split
    · exact length_filter_lt hL hfalse
    · refine length_filter_lt hL ?_
      simp [List.mem_dedup]

theorem shareStep_shrinks (T : ℕ) (ms : List (String × ℕ∞)) (I : String)
    (remaining : List String) (hI : I ∈ remaining) :
    (shareStep T ms I remaining).2.length < remaining.length := by
  have hsnd : (shareStep T ms I remaining).2 =
      remaining.filter (fun u => decide (u ∉ (shareStep T ms I remaining).1)) := rfl
  rw [hsnd]
  refine length_filter_lt hI ?_
  have hIg : I ∈ (shareStep T ms I remaining).1 := by
    show I ∈ I :: _
    exact List.mem_cons_self _ _
  simpa using hIg

theorem shareLoop_stale_retry (T : ℕ) (lockId : ℕ → String)
    (meas : ℕ → List (String × ℕ∞)) (fuel k : ℕ) (remaining : List String)
    (hst : lockId k = "unknown" ∨ lockId k ∉ remaining) (hrem : remaining ≠ []) :
    shareLoop T lockId meas (fuel + 1) k remaining =
      shareLoop T lockId meas fuel (k + 1) remaining := by
  have hemp : remaining.isEmpty = false := by
    rcases h : remaining.isEmpty with _ | _
    · rfl
    · exact absurd (List.isEmpty_iff.mp h) hrem
  rcases hst with h | h
  · simp [shareLoop, hemp, h]
  · by_cases hu : lockId k = "unknown"
    · simp [shareLoop, hemp, hu]
    · simp [shareLoop, hemp, hu, h]

/-- C7 counterexample: the single-URL loop has no retry bound — with a lock
attribution that always comes back `"unknown"` (a stale attribution on every
iteration) the run on the concrete instance set `["a"]` with threshold 5
never terminates, refuting "via bounded retries, still makes eventual
progress so the run terminates". -/
theorem c7_counterexample : shareRunNeverTerminates := by
  intro fuel
  induction fuel with
  | zero => intro k; rfl
  | succ n ih =>
    intro k
    rw [shareLoop_stale_retry 5 unknownLock noMeas n k ["a"] (Or.inl rfl)
      (by simp)]
    exact ih (k + 1)

/-- C7 amended: `RemainingSet` strictly shrinks in every committed iteration
of either partitioner variant, and a stale-lock iteration (unknown or
already-grouped attribution) mutates no state — it only consumes a retry;
the retries are, however, unbounded, so the single-URL run terminates only
if the lock attribution eventually lands on a remaining instance (the
per-URL variant always terminates, cf. the partition theorem). -/
theorem c7_monotonic_shrink :
    (∀ (T : ℕ) (meas : ℕ → String → Option ℕ) (k : ℕ) (L : String)
      (remaining : List String), L ∈ remaining →
      (coverStep T meas k L remaining).newRemaining.length < remaining.length) ∧
    (∀ (T : ℕ) (ms : List (String × ℕ∞)) (I : String) (remaining : List String),
      I ∈ remaining →
      (shareStep T ms I remaining).2.length < remaining.length) ∧
    (∀ (T : ℕ) (lockId : ℕ → String) (meas : ℕ → List (String × ℕ∞))
      (fuel k : ℕ) (remaining : List String),
      (lockId k = "unknown" ∨ lockId k ∉ remaining) → remaining ≠ [] →
      shareLoop T lockId meas (fuel + 1) k remaining =
        shareLoop T lockId meas fuel (k + 1) remaining) :=
  ⟨fun T meas k L remaining hL => coverStep_shrinks T meas k L remaining hL,
   fun T ms I remaining hI => shareStep_shrinks T ms I remaining hI,
   fun T lockId meas fuel k remaining hst hrem =>
     shareLoop_stale_retry T lockId meas fuel k remaining hst hrem⟩

/-- C7 witness: the three amended conjuncts at concrete inputs. -/
theorem c7_witness :
    (coverStep 1 (fun _ _ => none) 0 "a" ["a", "b"]).newRemaining.length <
      (["a", "b"] : List String).length ∧
    (shareStep 1 [] "a" ["a", "b"]).2.length < (["a", "b"] : List String).length ∧
    shareLoop 1 unknownLock noMeas 1 0 ["a"] = shareLoop 1 unknownLock noMeas 0 1 ["a"] :=
  ⟨c7_monotonic_shrink.1 1 (fun _ _ => none) 0 "a" ["a", "b"] (by decide),
   c7_monotonic_shrink.2.1 1 [] "a" ["a", "b"] (by decide),
   c7_monotonic_shrink.2.2 1 unknownLock noMeas 0 0 ["a"] (Or.inl rfl) (by decide)⟩

/-! ## Claim C2 — bisection convergence (corrected) -/

theorem bsearchAux_bounds (T : ℚ) (lat : ℕ → List (WithTop ℚ)) :
    ∀ (n : ℕ) (cands : List String) (fuel step : ℕ),
      cands.length = n → n ≠ 0 → n ≤ fuel →
      ((bsearchAux T lat fuel cands step).1 ∈ cands ∧
        step + Nat.log 2 n ≤ (bsearchAux T lat fuel cands step).2 ∧
        (bsearchAux T lat fuel cands step).2 ≤ step + Nat.clog 2 n) := by
  intro n
  induction n using Nat.strong_induction_on with
  | _ n ih =>
    intro cands fuel step hlen hn0 hfuel
    subst hlen
    rcases fuel with _ | f
    · omega
    · by_cases h1 : cands.length ≤ 1
      · have hc1 : cands.length = 1 := by omega
        rw [bsearchAux, if_pos h1]
        refine ⟨headD_mem ?_ "", ?_, ?_⟩
        · intro hnil
          rw [hnil] at hc1
          simp at hc1
        · rw [hc1, Nat.log_one_right]
          simp
        · rw [hc1, Nat.clog_one_right]
          simp
      · have h2 : 2 ≤ cands.length := by omega
        have hlog : Nat.log 2 cands.length = Nat.log 2 (cands.length / 2) + 1 :=
          Nat.log_of_one_lt_of_le one_lt_two h2
        have hclog : Nat.clog 2 cands.length =
            Nat.clog 2 ((cands.length + 1) / 2) + 1 := by
          have h := Nat.clog_of_two_le one_lt_two h2
          have harg : cands.length + 2 - 1 = cands.length + 1 := by omega
          rw [harg] at h
          exact h
        rw [bsearchAux, if_neg h1]
        dsimp only
        split
        · have htake : (cands.take (cands.length / 2)).length = cands.length / 2 := by
            rw [List.length_take]
            exact min_eq_left (Nat.div_le_self _ _)
          obtain ⟨hm, hlo, hhi⟩ := ih (cands.length / 2) (by omega)
            (cands.take (cands.length / 2)) f (step + 1) htake (by omega) (by omega)
          have hmono : Nat.clog 2 (cands.length / 2) ≤
              Nat.clog 2 ((cands.length + 1) / 2) :=
            Nat.clog_mono_right 2 (by omega)
          exact ⟨List.take_subset _ _ hm, by omega, by omega⟩
        · have hdrop : (cands.drop (cands.length / 2)).length =
              cands.length - cands.length / 2 := List.length_drop _ _
          have harg : cands.length - cands.length / 2 = (cands.length + 1) / 2 := by
            omega
          rw [harg] at hdrop
          obtain ⟨hm, hlo, hhi⟩ := ih ((cands.length + 1) / 2) (by omega)
            (cands.drop (cands.length / 2)) f (step + 1) hdrop (by omega) (by omega)
          have hmono : Nat.log 2 (cands.length / 2) ≤
              Nat.log 2 ((cands.length + 1) / 2) :=
            Nat.log_mono_right (by omega)
          exact ⟨List.drop_subset _ _ hm, by omega, by omega⟩

/-- C2 counterexample: on the 3-candidate list `["a", "b", "c"]` with every
measured median above the threshold, the Localizer keeps the (smaller) left
half in round 1 and finishes after exactly 1 round, while
`⌈log2 3⌉ = 2` — so it does not perform `⌈log2 N⌉` rounds "regardless of
which half is kept". -/
theorem c2_counterexample :
    (binary_search_localization 1 latAllFail ["a", "b", "c"]).2 = 1 ∧
      Nat.clog 2 3 = 2 :=
  ⟨by decide, by norm_num [Nat.clog]⟩

/-- C2 amended: for every candidate list of N ≥ 1 instances the Localizer
always terminates and returns one instance of the list; each step splits the
list by position into a left half of `len / 2` (floor) elements and the
right rest, keeping the left half iff the measured median latency is at or
above the threshold; the number of trigger/measure rounds is at least
`⌊log2 N⌋` and at most `⌈log2 N⌉` (keeping a left half can end the search
before `⌈log2 N⌉` rounds, as the counterexample shows). -/
theorem c2_bisection (T : ℚ) (lat : ℕ → List (WithTop ℚ)) :
    (∀ l : List String, l ≠ [] →
      (binary_search_localization T lat l).1 ∈ l ∧
      Nat.log 2 l.length ≤ (binary_search_localization T lat l).2 ∧
      (binary_search_localization T lat l).2 ≤ Nat.clog 2 l.length) ∧
    (∀ (cands : List String) (fuel step : ℕ), 2 ≤ cands.length →
      bsearchAux T lat (fuel + 1) cands step =
        (if is_above_threshold (measure_victim_latency (lat (step + 1))) T then
          bsearchAux T lat fuel (cands.take (cands.length / 2)) (step + 1)
        else
          bsearchAux T lat fuel (cands.drop (cands.length / 2)) (step + 1))) := by
  constructor
  · intro l hl
    have hn0 : l.length ≠ 0 := by
      simpa [List.length_eq_zero] using hl
    have h := bsearchAux_bounds T lat l.length l l.length 0 rfl hn0 le_rfl
    simpa [binary_search_localization] using h
  · intro cands fuel step h2
    rw [bsearchAux, if_neg (by omega)]

/-- C2 witness: the amended bisection theorem at the concrete 3-candidate
list under the always-below-threshold oracle, plus one concrete split step. -/
theorem c2_witness :
    ((binary_search_localization 1 latZero ["a", "b", "c"]).1 ∈ ["a", "b", "c"] ∧
      Nat.log 2 (["a", "b", "c"] : List String).length ≤
        (binary_search_localization 1 latZero ["a", "b", "c"]).2 ∧
      (binary_search_localization 1 latZero ["a", "b", "c"]).2 ≤
        Nat.clog 2 (["a", "b", "c"] : List String).length) ∧
    bsearchAux 1 latZero (0 + 1) ["a", "b"] 0 =
      (if is_above_threshold (measure_victim_latency (latZero (0 + 1))) 1 then
        bsearchAux 1 latZero 0 ((["a", "b"] : List String).take
          ((["a", "b"] : List String).length / 2)) (0 + 1)
      else
        bsearchAux 1 latZero 0 ((["a", "b"] : List String).drop
          ((["a", "b"] : List String).length / 2)) (0 + 1)) :=
  ⟨(c2_bisection 1 latZero).1 ["a", "b", "c"] (by decide),
   (c2_bisection 1 latZero).2 ["a", "b"] 0 0 (by decide)⟩

/-! ## Claim C6 — Phase-1 candidate-set selection (corrected) -/

theorem findCandAux_eq_nat (T : ℚ) (lat : ℕ → List (WithTop ℚ)) :
    ∀ (sets : List (List String)) (i idx : ℕ),
      findCandAux T lat i sets = (idx : Int) →
      i ≤ idx ∧ idx - i < sets.length ∧
      sets.getD (idx - i) [] ≠ [] ∧
      is_above_threshold (measure_victim_latency (lat idx)) T = true ∧
      ∀ j, i ≤ j → j < idx → (sets.getD (j - i) [] = [] ∨
        is_above_threshold (measure_victim_latency (lat j)) T = false) := by
  intro sets
  induction sets with
  | nil =>
    intro i idx h
    rw [findCandAux] at h
    omega
  | cons s rest ih =>
    intro i idx h
    rw [findCandAux] at h
    by_cases hs : s.isEmpty
    · rw [if_pos hs] at h
      obtain ⟨hle, hlt, hgd, hab, hall⟩ := ih (i + 1) idx h
      have hse : s = [] := List.isEmpty_iff.mp hs
      have hshift : idx - i = (idx - (i + 1)) + 1 := by omega
      refine ⟨by omega, by simp; omega, ?_, hab, ?_⟩
      · rw [hshift, List.getD_cons_succ]
        exact hgd
      · intro j hij hjx
        rcases Nat.eq_or_lt_of_le hij with rfl | hij'
        · left
          simpa using hse
        · have hj : j - i = (j - (i + 1)) + 1 := by omega
          rw [hj, List.getD_cons_succ]
          exact hall j (by omega) hjx
    · rw [if_neg hs] at h
      by_cases ha : is_above_threshold (measure_victim_latency (lat i)) T
      · rw [if_pos ha] at h
        have hidx : i = idx := by omega
        subst hidx
        refine ⟨le_rfl, by simp, ?_, ha, ?_⟩
        · simpa [List.isEmpty_iff] using hs
        · intro j hij hji
          omega
      · rw [if_neg ha] at h
        obtain ⟨hle, hlt, hgd, hab, hall⟩ := ih (i + 1) idx h
        have hshift : idx - i = (idx - (i + 1)) + 1 := by omega
        refine ⟨by omega, by simp; omega, ?_, hab, ?_⟩
        · rw [hshift, List.getD_cons_succ]
          exact hgd
        · intro j hij hjx
          rcases Nat.eq_or_lt_of_le hij with rfl | hij'
          · right
            simpa using ha
          · have hj : j - i = (j - (i + 1)) + 1 := by omega
            rw [hj, List.getD_cons_succ]
            exact hall j (by omega) hjx

theorem findCandAux_eq_neg (T : ℚ) (lat : ℕ → List (WithTop ℚ)) :
    ∀ (sets : List (List String)) (i : ℕ),
      findCandAux T lat i sets = -1 →
      ∀ j, i ≤ j → j < i + sets.length →
        sets.getD (j - i) [] = [] ∨
        is_above_threshold (measure_victim_latency (lat j)) T = false := by
  intro sets
  induction sets with
  | nil =>
    intro i _ j _ hj
    simp at hj
    omega
  | cons s rest ih =>
    intro i h j hij hj
    rw [findCandAux] at h
    by_cases hs : s.isEmpty
    · rw [if_pos hs] at h
      rcases Nat.eq_or_lt_of_le hij with rfl | hij'
      · left
        simp [List.isEmpty_iff.mp hs]
      · have hjs : j - i = (j - (i + 1)) + 1 := by omega
        rw [hjs, List.getD_cons_succ]
        exact ih (i + 1) h j (by omega) (by simp at hj ⊢; omega)
    · rw [if_neg hs] at h
      by_cases ha : is_above_threshold (measure_victim_latency (lat i)) T
      · rw [if_pos ha] at h
        omega
      · rw [if_neg ha] at h
        rcases Nat.eq_or_lt_of_le hij with rfl | hij'
        · right
          simpa using ha
        · have hjs : j - i = (j - (i + 1)) + 1 := by omega
          rw [hjs, List.getD_cons_succ]
          exact ih (i + 1) h j (by omega) (by simp at hj ⊢; omega)

theorem findCandAux_cases (T : ℚ) (lat : ℕ → List (WithTop ℚ)) :
    ∀ (sets : List (List String)) (i : ℕ),
      findCandAux T lat i sets = -1 ∨
      ∃ idx : ℕ, findCandAux T lat i sets = (idx : Int) := by
  intro sets
  induction sets with
  | nil => intro i; exact Or.inl rfl
  | cons s rest ih =>
    intro i
    rw [findCandAux]
    by_cases hs : s.isEmpty
    · rw [if_pos hs]
      exact ih (i + 1)
    · rw [if_neg hs]
      by_cases ha : is_above_threshold (measure_victim_latency (lat i)) T
      · rw [if_pos ha]
        exact Or.inr ⟨i, rfl⟩
      · rw [if_neg ha]
        exact ih (i + 1)

theorem filterMap_untopQ_filter (lats : List (WithTop ℚ)) :
    (lats.filter (fun x => decide (x ≠ ⊤))).filterMap untopQ =
      lats.filterMap untopQ := by
  induction lats with
  | nil => rfl
  | cons x xs ih =>
    induction x using WithTop.recTopCoe with
    | top => simpa [List.filter_cons, untopQ, List.filterMap_cons] using ih
    | coe q =>
      simp [List.filter_cons, untopQ, List.filterMap_cons, WithTop.coe_ne_top]
      simpa [decide_not] using ih

theorem measure_victim_latency_props (lats : List (WithTop ℚ)) :
    ((∀ x ∈ lats, x = ⊤) → measure_victim_latency lats = ⊤) ∧
    ((∃ x ∈ lats, x ≠ ⊤) →
      measure_victim_latency lats =
        measure_victim_latency (lats.filter (fun x => decide (x ≠ ⊤))) ∧
      measure_victim_latency lats ≠ ⊤) := by
  constructor
  · intro hall
    have hnil : lats.filterMap untopQ = [] := by
      rw [List.filterMap_eq_nil_iff]
      intro a ha
      rw [hall a ha]
      rfl
    rw [measure_victim_latency]
    simp [hnil]
  · rintro ⟨x, hx, hxt⟩
    have hmem : ∃ q : ℚ, q ∈ lats.filterMap untopQ := by
      rcases x with _ | q
      · exact absurd rfl hxt
      · exact ⟨q, List.mem_filterMap.mpr ⟨(q : WithTop ℚ), hx, rfl⟩⟩
    obtain ⟨q, hq⟩ := hmem
    have hne : (lats.filterMap untopQ).isEmpty = false := by
      rcases h : (lats.filterMap untopQ).isEmpty with _ | _
      · rfl
      · rw [List.isEmpty_iff.mp h] at hq
        cases hq
    constructor
    · rw [measure_victim_latency, measure_victim_latency, filterMap_untopQ_filter]
    · rw [measure_victim_latency]
      simp only [hne, Bool.false_eq_true, if_false]
      exact WithTop.coe_ne_top

/-- C6 counterexample: with `cpu_sets = [[], ["a"]]` and a measured median of
2 ≥ threshold 1 for every probe, the set at index 0 *would* qualify by
median, yet `find_candidate_set` skips it (empty instance list, never
probed) and selects index 1 — refuting "selects the first set for which the
victim's median latency is ≥ the threshold" as stated. -/
theorem c6_counterexample :
    find_candidate_set 1 (fun _ => [((2 : ℚ) : WithTop ℚ)]) [[], ["a"]] = 1 ∧
    is_above_threshold
      (measure_victim_latency ((fun _ => [((2 : ℚ) : WithTop ℚ)]) 0)) 1 = true :=
  ⟨by decide, by decide⟩

/-- C6 amended: Phase 1 iterates the architecture sets in input order,
skipping sets with an empty instance list without probing them; it selects
the first *nonempty* set whose measured median is at or above the threshold
and scans no further; the median over the probe runs drops failed requests
(`⊤`) unless all runs fail, in which case it is `⊤`; when no set qualifies
the outcome is the `-1` sentinel (the scan is total — no exception). -/
theorem c6_candidate_selection (T : ℚ) (lat : ℕ → List (WithTop ℚ)) :
    (∀ (sets : List (List String)) (idx : ℕ),
      find_candidate_set T lat sets = (idx : Int) →
        idx < sets.length ∧ sets.getD idx [] ≠ [] ∧
        is_above_threshold (measure_victim_latency (lat idx)) T = true ∧
        ∀ j < idx, sets.getD j [] = [] ∨
          is_above_threshold (measure_victim_latency (lat j)) T = false) ∧
    (∀ sets : List (List String), find_candidate_set T lat sets = -1 →
      ∀ j < sets.length, sets.getD j [] = [] ∨
        is_above_threshold (measure_victim_latency (lat j)) T = false) ∧
    (∀ sets : List (List String), find_candidate_set T lat sets = -1 ∨
      ∃ idx : ℕ, find_candidate_set T lat sets = (idx : Int)) ∧
    (∀ lats : List (WithTop ℚ),
      ((∀ x ∈ lats, x = ⊤) → measure_victim_latency lats = ⊤) ∧
      ((∃ x ∈ lats, x ≠ ⊤) →
        measure_victim_latency lats =
          measure_victim_latency (lats.filter (fun x => decide (x ≠ ⊤))) ∧
        measure_victim_latency lats ≠ ⊤)) := by
  refine ⟨?_, ?_, fun sets => findCandAux_cases T lat sets 0,
    fun lats => measure_victim_latency_props lats⟩
  · intro sets idx h
    obtain ⟨_, hlt, hgd, hab, hall⟩ := findCandAux_eq_nat T lat sets 0 idx h
    rw [Nat.sub_zero] at hlt hgd
    refine ⟨hlt, hgd, hab, ?_⟩
    intro j hj
    have := hall j (Nat.zero_le j) hj
    rwa [Nat.sub_zero] at this
  · intro sets h j hj
    have := findCandAux_eq_neg T lat sets 0 h j (Nat.zero_le j) (by omega)
    rwa [Nat.sub_zero] at this

/-- C6 witness: the amended selection theorem at a concrete input with an
empty set before the selected one, plus the median properties on a mixed
latency sample. -/
theorem c6_witness :
    ((1 : ℕ) < ([[], ["a"]] : List (List String)).length ∧
      ([[], ["a"]] : List (List String)).getD 1 [] ≠ [] ∧
      is_above_threshold
        (measure_victim_latency ((fun _ => [((2 : ℚ) : WithTop ℚ)]) 1)) 1 = true ∧
      ∀ j < 1, ([[], ["a"]] : List (List String)).getD j [] = [] ∨
        is_above_threshold
          (measure_victim_latency ((fun _ => [((2 : ℚ) : WithTop ℚ)]) j)) 1 = false) ∧
    (measure_victim_latency [⊤, ((3 : ℚ) : WithTop ℚ)] =
        measure_victim_latency ([⊤, ((3 : ℚ) : WithTop ℚ)].filter
          (fun x => decide (x ≠ ⊤))) ∧
      measure_victim_latency [⊤, ((3 : ℚ) : WithTop ℚ)] ≠ ⊤) :=
  ⟨(c6_candidate_selection 1 (fun _ => [((2 : ℚ) : WithTop ℚ)])).1 [[], ["a"]] 1
      (by decide),
   ((c6_candidate_selection 1 (fun _ => [((2 : ℚ) : WithTop ℚ)])).2.2.2
      [⊤, ((3 : ℚ) : WithTop ℚ)]).2
      ⟨((3 : ℚ) : WithTop ℚ), by decide, by decide⟩⟩

/-! ## Claim C1 — partition completeness of both partitioner variants -/

theorem coverStep_spec (T : ℕ) (meas : ℕ → String → Option ℕ) (k : ℕ)
    (L : String) (remaining : List String) :
    (coverStep T meas k L remaining).group.members.Nodup ∧
    L ∈ (coverStep T meas k L remaining).group.members ∧
    (∀ x ∈ (coverStep T meas k L remaining).group.members, x = L ∨ x ∈ remaining) ∧
    (∀ x, x ∈ (coverStep T meas k L remaining).newRemaining ↔
      x ∈ remaining ∧ x ∉ (coverStep T meas k L remaining).group.members) ∧
    (remaining.Nodup → (coverStep T meas k L remaining).newRemaining.Nodup) := by
  rw [coverStep]
  dsimp only
  split
  · refine ⟨by simp, by simp, by simp, ?_, fun h => h.filter _⟩
    intro x
    simp [List.mem_filter]
  · split
    · refine ⟨by simp, by simp, by simp, ?_, fun h => h.filter _⟩
      intro x
      simp [List.mem_filter]
    · refine ⟨List.nodup_dedup _, ?_, ?_, ?_, fun h => h.filter _⟩
      · rw [List.mem_dedup]
        exact List.mem_cons_self _ _
      · intro x hx
        rw [List.mem_dedup] at hx
        rcases List.mem_cons.mp hx with rfl | hv
        · exact Or.inl rfl
        · refine Or.inr ?_
          have h1 := List.mem_of_mem_filter hv
          have h2 := List.mem_of_mem_filter h1
          exact List.mem_of_mem_filter h2
      · intro x
        simp [List.mem_filter]

theorem coverLoop_partition (T : ℕ) (pick : List String → String)
    (meas : ℕ → String → Option ℕ)
    (hpick : ∀ l : List String, l ≠ [] → pick l ∈ l) :
    ∀ (fuel k : ℕ) (remaining : List String), remaining.Nodup →
      remaining.length ≤ fuel →
      (((coverLoop T pick meas fuel k remaining).map Group.members).flatten.Nodup ∧
        ∀ x, x ∈ ((coverLoop T pick meas fuel k remaining).map Group.members).flatten ↔
          x ∈ remaining) := by
  intro fuel
  induction fuel with
  | zero =>
    intro k remaining hnd hlen
    have hnil : remaining = [] := List.eq_nil_of_length_eq_zero (Nat.le_zero.mp hlen)
    subst hnil
    simp [coverLoop]
  | succ f ih =>
    intro k remaining hnd hlen
    by_cases hemp : remaining.isEmpty = true
    · have hnil : remaining = [] := List.isEmpty_iff.mp hemp
      subst hnil
      simp [coverLoop]
    · have hne : remaining ≠ [] := fun h => hemp (by rw [h]; rfl)
      have hL : pick remaining ∈ remaining := hpick remaining hne
      rw [coverLoop, if_neg hemp]
      dsimp only
      obtain ⟨hnodupM, hLmem, hsub, hiff, hndnew⟩ :=
        coverStep_spec T meas k (pick remaining) remaining
      have hlt : (coverStep T meas k (pick remaining) remaining).newRemaining.length <
          remaining.length := coverStep_shrinks T meas k (pick remaining) remaining hL
      obtain ⟨ihn, ihiff⟩ := ih (k + (coverStep T meas k (pick remaining) remaining).usedRounds)
        (coverStep T meas k (pick remaining) remaining).newRemaining (hndnew hnd) (by omega)
      constructor
      · rw [List.map_cons, List.flatten_cons, List.nodup_append]
        refine ⟨hnodupM, ihn, ?_⟩
        intro a haM haR
        have haN := (ihiff a).mp haR
        exact ((hiff a).mp haN).2 haM
      · intro x
        rw [List.map_cons, List.flatten_cons, List.mem_append]
        constructor
        · rintro (hm | hr)
          · rcases hsub x hm with rfl | h
            · exact hL
            · exact h
          · exact ((hiff x).mp ((ihiff x).mp hr)).1
        · intro hx
          by_cases hxm : x ∈ (coverStep T meas k (pick remaining) remaining).group.members
          · exact Or.inl hxm
          · exact Or.inr ((ihiff x).mpr ((hiff x).mpr ⟨hx, hxm⟩))

theorem mem_updateMetric_keys (acc : List (String × ℕ∞)) (id : String) (v : ℕ∞) :
    ∀ x, x ∈ (updateMetric acc id v).map Prod.fst ↔
      x ∈ acc.map Prod.fst ∨ x = id := by
  intro x
  induction acc with
  | nil => simp [updateMetric]
  | cons p rest ih =>
    obtain ⟨j, w⟩ := p
    by_cases hj : j = id
    · subst hj
      simp only [updateMetric, eq_self_iff_true, if_true, List.map_cons,
        List.mem_cons]
      constructor
      · rintro (rfl | h)
        · exact Or.inl (Or.inl rfl)
        · exact Or.inl (Or.inr h)
      · rintro ((rfl | h) | rfl)
        · exact Or.inl rfl
        · exact Or.inr h
        · exact Or.inl rfl
    · simp only [updateMetric, if_neg hj, List.map_cons, List.mem_cons, ih]
      tauto

theorem updateMetric_keys_nodup (acc : List (String × ℕ∞)) (id : String) (v : ℕ∞)
    (h : (acc.map Prod.fst).Nodup) : ((updateMetric acc id v).map Prod.fst).Nodup := by
  induction acc with
  | nil => simp [updateMetric]
  | cons p rest ih =>
    obtain ⟨j, w⟩ := p
    rw [List.map_cons, List.nodup_cons] at h
    by_cases hj : j = id
    · subst hj
      simp only [updateMetric, eq_self_iff_true, if_true, List.map_cons]
      rw [List.nodup_cons]
      exact ⟨h.1, h.2⟩
    · simp only [updateMetric, if_neg hj, List.map_cons]
      rw [List.nodup_cons]
      refine ⟨?_, ih h.2⟩
      intro hmem
      rcases (mem_updateMetric_keys rest id v j).mp hmem with hin | heq
      · exact h.1 hin
      · exact hj heq

theorem buildMetricMap_keys_nodup (remaining : List String)
    (ms : List (String × ℕ∞)) :
    ((buildMetricMap remaining ms).map Prod.fst).Nodup := by
  rw [buildMetricMap]
  suffices h : ∀ (ms' acc : List (String × ℕ∞)), (acc.map Prod.fst).Nodup →
      ((ms'.foldl (aggStep remaining) acc).map Prod.fst).Nodup by
    exact h ms [] (by simp)
  intro ms'
  induction ms' with
  | nil => intro acc hacc; exact hacc
  | cons m rest ih =>
    intro acc hacc
    rw [List.foldl_cons]
    apply ih
    obtain ⟨i, v⟩ := m
    by_cases hkeep : i ∈ remaining ∧ v ≠ ⊤
    · have hstep : aggStep remaining acc (i, v) = updateMetric acc i v := by
        show (if i ∈ remaining ∧ v ≠ ⊤ then updateMetric acc i v else acc) = _
        exact if_pos hkeep
      rw [hstep]
      exact updateMetric_keys_nodup acc i v hacc
    · have hstep : aggStep remaining acc (i, v) = acc := by
        show (if i ∈ remaining ∧ v ≠ ⊤ then updateMetric acc i v else acc) = acc
        exact if_neg hkeep
      rw [hstep]
      exact hacc

theorem shareStep_spec (T : ℕ) (ms : List (String × ℕ∞)) (I : String)
    (remaining : List String) :
    (shareStep T ms I remaining).1.Nodup ∧
    I ∈ (shareStep T ms I remaining).1 ∧
    (∀ x ∈ (shareStep T ms I remaining).1, x = I ∨ x ∈ remaining) ∧
    (∀ x, x ∈ (shareStep T ms I remaining).2 ↔
      x ∈ remaining ∧ x ∉ (shareStep T ms I remaining).1) ∧
    (remaining.Nodup → (shareStep T ms I remaining).2.Nodup) := by
  have hgroup : (shareStep T ms I remaining).1 = I ::
      ((buildMetricMap remaining ms).filter
        (fun p => decide (p.1 ≠ I) && decide ((T : ℕ∞) ≤ p.2))).map Prod.fst := rfl
  have hsnd : (shareStep T ms I remaining).2 =
      remaining.filter (fun u => decide (u ∉ (shareStep T ms I remaining).1)) := rfl
  refine ⟨?_, ?_, ?_, ?_, ?_⟩
  · rw [hgroup, List.nodup_cons]
    constructor
    · intro hmem
      obtain ⟨p, hp, hfst⟩ := List.mem_map.mp hmem
      have := (List.mem_filter.mp hp).2
      simp only [Bool.and_eq_true, decide_eq_true_iff] at this
      exact this.1 hfst
    · refine List.Nodup.sublist ?_ (buildMetricMap_keys_nodup remaining ms)
      exact List.Sublist.map Prod.fst (List.filter_sublist _)
  · rw [hgroup]
    exact List.mem_cons_self _ _
  · intro x hx
    rw [hgroup] at hx
    rcases List.mem_cons.mp hx with rfl | hx'
    · exact Or.inl rfl
    · obtain ⟨p, hp, rfl⟩ := List.mem_map.mp hx'
      exact Or.inr (buildMetricMap_mem_inv remaining ms p (List.mem_of_mem_filter hp)).1
  · intro x
    rw [hsnd]
    simp [List.mem_filter]
  · intro hnd
    rw [hsnd]
    exact hnd.filter _

theorem shareLoop_partition (T : ℕ) (lockId : ℕ → String)
    (meas : ℕ → List (String × ℕ∞)) :
    ∀ (fuel k : ℕ) (remaining : List String) (gs : List (List String)),
      remaining.Nodup →
      shareLoop T lockId meas fuel k remaining = some gs →
      (gs.flatten.Nodup ∧ ∀ x, x ∈ gs.flatten ↔ x ∈ remaining) := by
  intro fuel
  induction fuel with
  | zero =>
    intro k remaining gs hnd h
    rw [shareLoop] at h
    by_cases hemp : remaining.isEmpty = true
    · rw [if_pos hemp] at h
      obtain rfl := Option.some.inj h
      have hnil : remaining = [] := List.isEmpty_iff.mp hemp
      subst hnil
      simp
    · rw [if_neg hemp] at h
      cases h
  | succ f ih =>
    intro k remaining gs hnd h
    rw [shareLoop] at h
    by_cases hemp : remaining.isEmpty = true
    · rw [if_pos hemp] at h
      obtain rfl := Option.some.inj h
      have hnil : remaining = [] := List.isEmpty_iff.mp hemp
      subst hnil
      simp
    · rw [if_neg hemp] at h
      dsimp only at h
      by_cases hu : lockId k = "unknown"
      · rw [if_pos hu] at h
        exact ih (k + 1) remaining gs hnd h
      · rw [if_neg hu] at h
        by_cases hstale : lockId k ∉ remaining
        · rw [if_pos hstale] at h
          exact ih (k + 1) remaining gs hnd h
        · rw [if_neg hstale] at h
          have hmemI : lockId k ∈ remaining := not_not.mp hstale
          rcases hinner : shareLoop T lockId meas f (k + 1)
              (shareStep T (meas k) (lockId k) remaining).2 with _ | gs'
          · rw [hinner] at h
            cases h
          · rw [hinner] at h
            obtain rfl : (shareStep T (meas k) (lockId k) remaining).1 :: gs' = gs :=
              Option.some.inj h
            obtain ⟨hnodupG, hImem, hsub, hiff, hndnew⟩ :=
              shareStep_spec T (meas k) (lockId k) remaining
            obtain ⟨ihn, ihiff⟩ := ih (k + 1) _ gs' (hndnew hnd) hinner
            constructor
            · rw [List.flatten_cons, List.nodup_append]
              refine ⟨hnodupG, ihn, ?_⟩
              intro a haG haR
              exact ((hiff a).mp ((ihiff a).mp haR)).2 haG
            · intro x
              rw [List.flatten_cons, List.mem_append]
              constructor
              · rintro (hm | hr)
                · rcases hsub x hm with rfl | hx
                  · exact hmemI
                  · exact hx
                · exact ((hiff x).mp ((ihiff x).mp hr)).1
              · intro hx
                by_cases hxm : x ∈ (shareStep T (meas k) (lockId k) remaining).1
                · exact Or.inl hxm
                · exact Or.inr ((ihiff x).mpr ((hiff x).mpr ⟨hx, hxm⟩))

/-- C1: when either Iterative Partitioner terminates, the member lists of
the groups it returns concatenate to a duplicate-free list (so the groups
are mutually disjoint) whose elements are exactly the input instances: each
instance shows up in exactly one group exactly once, none is lost and none
is invented.  The per-URL variant always terminates; the single-URL variant
is conditioned on its loop returning a result. -/
theorem c1_partition_completeness (pick : List String → String)
    (hpick : ∀ l : List String, l ≠ [] → pick l ∈ l) :
    (∀ (T : ℕ) (meas : ℕ → String → Option ℕ) (urls : List String),
      ((identify_server_coverage (some T) pick meas urls).map Group.members).flatten.Nodup ∧
      List.Pairwise List.Disjoint
        ((identify_server_coverage (some T) pick meas urls).map Group.members) ∧
      ∀ x, x ∈ ((identify_server_coverage (some T) pick meas urls).map
        Group.members).flatten ↔ x ∈ urls) ∧
    (∀ (T : ℕ) (lockId : ℕ → String) (meas : ℕ → List (String × ℕ∞)) (fuel : ℕ)
      (ids : List String) (gs : List (List String)),
      identify_server_sharing (some T) lockId meas fuel ids = some gs →
      gs.flatten.Nodup ∧ List.Pairwise List.Disjoint gs ∧
      ∀ x, x ∈ gs.flatten ↔ x ∈ ids) := by
  constructor
  · intro T meas urls
    obtain ⟨hnd, hiff⟩ := coverLoop_partition T pick meas hpick urls.dedup.length 0
      urls.dedup (List.nodup_dedup urls) le_rfl
    have heq : identify_server_coverage (some T) pick meas urls =
        coverLoop T pick meas urls.dedup.length 0 urls.dedup := rfl
    rw [heq]
    refine ⟨hnd, (List.nodup_flatten.mp hnd).2, ?_⟩
    intro x
    rw [hiff x, List.mem_dedup]
  · intro T lockId meas fuel ids gs h
    have heq : identify_server_sharing (some T) lockId meas fuel ids =
        shareLoop T lockId meas fuel 0 ids.dedup := rfl
    rw [heq] at h
    obtain ⟨hnd, hiff⟩ := shareLoop_partition T lockId meas fuel 0 ids.dedup gs
      (List.nodup_dedup ids) h
    refine ⟨hnd, (List.nodup_flatten.mp hnd).2, ?_⟩
    intro x
    rw [hiff x, List.mem_dedup]

/-- C1 witness: both partition conclusions at concrete runs (the per-URL
run is the spec §8 example; the single-URL run has a stale first lock and
an unmeasurable probe). -/
theorem c1_witness :
    (((identify_server_coverage (some 1000) headPick measA
        ["a", "b", "c", "d"]).map Group.members).flatten.Nodup ∧
      ("b" ∈ ((identify_server_coverage (some 1000) headPick measA
        ["a", "b", "c", "d"]).map Group.members).flatten ↔
        "b" ∈ ["a", "b", "c", "d"])) ∧
    ([["instance-A", "instance-B"], ["instance-C"]] : List (List String)).flatten.Nodup ∧
    ("instance-C" ∈
        ([["instance-A", "instance-B"], ["instance-C"]] : List (List String)).flatten ↔
      "instance-C" ∈ ["instance-A", "instance-B", "instance-C"]) :=
  ⟨⟨((c1_partition_completeness headPick headPick_mem).1 1000 measA
      ["a", "b", "c", "d"]).1,
    ((c1_partition_completeness headPick headPick_mem).1 1000 measA
      ["a", "b", "c", "d"]).2.2 "b"⟩,
   ((c1_partition_completeness headPick headPick_mem).2 50 lockIdW measW 4
      ["instance-A", "instance-B", "instance-C"]
      [["instance-A", "instance-B"], ["instance-C"]] (by decide)).1,
   ((c1_partition_completeness headPick headPick_mem).2 50 lockIdW measW 4
      ["instance-A", "instance-B", "instance-C"]
      [["instance-A", "instance-B"], ["instance-C"]] (by decide)).2.2 "instance-C"⟩

/-! ## Claim C3 — metric parsing (corrected)

To state what "an occurrence of the pattern" means independently of the
matcher, the regular expressions are rendered as explicit decompositions:
`TailPattern` is `\s+is\s+\d+` (followed by anything), `AnyCountAt` is
`count\[\d+\]` followed by a `TailPattern` at the start of the text, and
`ZeroCountAt` the same with the literal index `0`.  `LineHasCountAny` /
`HasCountZero` allow an arbitrary prefix, i.e. they say the regex matches
*somewhere* in the text, which is what `re.search` looks for. -/

theorem stripLit_eq_some : ∀ (p cs r : List Char),
    stripLit p cs = some r ↔ cs = p ++ r := by
  intro p
  induction p with
  | nil =>
    intro cs r
    simp [stripLit]
  | cons pc ps ih =>
    intro cs r
    cases cs with
    | nil =>
      simp [stripLit]
    | cons c cs' =>
      by_cases hc : c = pc
      · subst hc
        rw [stripLit, if_pos rfl, ih, List.cons_append]
        constructor
        · intro h
          rw [h]
        · intro h
          exact (List.cons.injEq _ _ _ _ ▸ h).2
      · rw [stripLit, if_neg hc]
        simp only [List.cons_append]
        constructor
        · intro h
          cases h
        · intro h
          exact absurd (List.cons.injEq _ _ _ _ ▸ h).1 hc

theorem takeWhile_append_cons (p : Char → Bool) (xs : List Char) (y : Char)
    (ys : List Char) (hxs : ∀ c ∈ xs, p c = true) (hy : p y = false) :
    (xs ++ y :: ys).takeWhile p = xs ∧ (xs ++ y :: ys).dropWhile p = y :: ys := by
  induction xs with
  | nil =>
    constructor
    · rw [List.nil_append, List.takeWhile_cons, hy]
      simp
    · rw [List.nil_append, List.dropWhile_cons, hy]
      simp
  | cons x xs' ih =>
    have hx : p x = true := hxs x (List.mem_cons_self _ _)
    have hrest : ∀ c ∈ xs', p c = true := fun c hc => hxs c (List.mem_cons_of_mem _ hc)
    obtain ⟨h1, h2⟩ := ih hrest
    constructor
    · rw [List.cons_append, List.takeWhile_cons, hx]
      simp only [if_true]
      rw [h1]
    · rw [List.cons_append, List.dropWhile_cons, hx]
      simp only [if_true]
      rw [h2]

theorem dropWhile_head_false (p : Char → Bool) :
    ∀ (l : List Char) (y : Char) (ys : List Char),
      l.dropWhile p = y :: ys → p y = false := by
  intro l
  induction l with
  | nil => intro y ys h; cases h
  | cons x xs ih =>
    intro y ys h
    rw [List.dropWhile_cons] at h
    by_cases hx : p x = true
    · rw [if_pos hx] at h
      exact ih y ys h
    · rw [if_neg hx] at h
      obtain rfl : x = y := (List.cons.injEq _ _ _ _ ▸ h).1
      exact Bool.not_eq_true _ ▸ hx

theorem isDigit_not_pyIsSpace (c : Char) (h : c.isDigit = true) :
    pyIsSpace c = false := by
  rw [pyIsSpace]
  simp only [Bool.or_eq_false_iff, decide_eq_false_iff_not]
  refine ⟨⟨⟨⟨⟨?_, ?_⟩, ?_⟩, ?_⟩, ?_⟩, ?_⟩ <;>
    · rintro rfl
      exact absurd h (by decide)

theorem ne_nil_of_isEmpty_ne {α : Type} {l : List α}
    (h : ¬l.isEmpty = true) : l ≠ [] := by
  intro hnil
  rw [hnil] at h
  exact h rfl

theorem matchAfterBracket_isSome_iff (cs : List Char) :
    (matchAfterBracket cs).isSome = true ↔ TailPattern cs := by
  constructor
  · intro h
    rw [matchAfterBracket] at h
    dsimp only at h
    by_cases h1 : (cs.takeWhile pyIsSpace).isEmpty = true
    · rw [if_pos h1] at h
      simp at h
    · rw [if_neg h1] at h
      rcases h2 : stripLit ("is".toList) (cs.dropWhile pyIsSpace) with _ | cs2
      · rw [h2] at h
        simp at h
      · rw [h2] at h
        dsimp only at h
        by_cases h3 : (cs2.takeWhile pyIsSpace).isEmpty = true
        · rw [if_pos h3] at h
          simp at h
        · rw [if_neg h3] at h
          by_cases h4 : ((cs2.dropWhile pyIsSpace).takeWhile Char.isDigit).isEmpty = true
          · rw [if_pos h4] at h
            simp at h
          · refine ⟨cs.takeWhile pyIsSpace, cs2.takeWhile pyIsSpace,
              (cs2.dropWhile pyIsSpace).takeWhile Char.isDigit,
              (cs2.dropWhile pyIsSpace).dropWhile Char.isDigit,
              ⟨ne_nil_of_isEmpty_ne h1, fun c hc => List.mem_takeWhile_imp hc⟩,
              ⟨ne_nil_of_isEmpty_ne h3, fun c hc => List.mem_takeWhile_imp hc⟩,
              ⟨ne_nil_of_isEmpty_ne h4, fun c hc => List.mem_takeWhile_imp hc⟩, ?_⟩
            have e2 : cs.dropWhile pyIsSpace = "is".toList ++ cs2 :=
              (stripLit_eq_some _ _ _).mp h2
            have e4 : cs2.dropWhile pyIsSpace =
                (cs2.dropWhile pyIsSpace).takeWhile Char.isDigit ++
                  (cs2.dropWhile pyIsSpace).dropWhile Char.isDigit :=
              (List.takeWhile_append_dropWhile _ _).symm
            conv_lhs => rw [← List.takeWhile_append_dropWhile pyIsSpace cs, e2,
              ← List.takeWhile_append_dropWhile pyIsSpace cs2, e4]
            simp [List.append_assoc]
  · rintro ⟨sp1, sp2, val, post, ⟨hsp1ne, hsp1⟩, ⟨hsp2ne, hsp2⟩, ⟨hvne, hval⟩, rfl⟩
    rcases val with _ | ⟨v, val'⟩
    · exact absurd rfl hvne
    · have hvd : v.isDigit = true := hval v (List.mem_cons_self _ _)
      have hgoal : sp1 ++ "is".toList ++ sp2 ++ (v :: val') ++ post =
          sp1 ++ 'i' :: 's' :: (sp2 ++ v :: (val' ++ post)) := by
        have his : ("is".toList : List Char) = ['i', 's'] := rfl
        simp [his, List.append_assoc]
      rw [hgoal]
      obtain ⟨ht1, hd1⟩ := takeWhile_append_cons pyIsSpace sp1 'i'
        ('s' :: (sp2 ++ v :: (val' ++ post))) hsp1 (by decide)
      obtain ⟨ht2, hd2⟩ := takeWhile_append_cons pyIsSpace sp2 v (val' ++ post)
        hsp2 (isDigit_not_pyIsSpace v hvd)
      have hst : stripLit ("is".toList)
          ('i' :: 's' :: (sp2 ++ v :: (val' ++ post))) =
            some (sp2 ++ v :: (val' ++ post)) :=
        (stripLit_eq_some _ _ _).mpr rfl
      rw [matchAfterBracket]
      dsimp only
      rw [ht1, hd1, hst]
      rw [if_neg (fun he => hsp1ne (List.isEmpty_iff.mp he))]
      dsimp only
      rw [ht2, hd2]
      rw [if_neg (fun he => hsp2ne (List.isEmpty_iff.mp he))]
      rw [List.takeWhile_cons_of_pos hvd]
      rw [if_neg (by simp)]
      rfl

theorem matchCountAnyAt_isSome_iff (cs : List Char) :
    (matchCountAnyAt cs).isSome = true ↔ AnyCountAt cs := by
  constructor
  · intro h
    rw [matchCountAnyAt] at h
    rcases h2 : stripLit ("count[".toList) cs with _ | cs1
    · rw [h2] at h
      simp at h
    · rw [h2] at h
      dsimp only at h
      by_cases h3 : (cs1.takeWhile Char.isDigit).isEmpty = true
      · rw [if_pos h3] at h
        simp at h
      · rw [if_neg h3] at h
        rcases h4 : cs1.dropWhile Char.isDigit with _ | ⟨c, cs3⟩
        · rw [h4] at h
          simp at h
        · rw [h4] at h
          dsimp only at h
          by_cases hc : c = ']'
          · subst hc
            rw [if_pos rfl] at h
            refine ⟨cs1.takeWhile Char.isDigit, cs3,
              ⟨ne_nil_of_isEmpty_ne h3, fun d hd => List.mem_takeWhile_imp hd⟩,
              (matchAfterBracket_isSome_iff cs3).mp h, ?_⟩
            have e1 : cs = "count[".toList ++ cs1 := (stripLit_eq_some _ _ _).mp h2
            have e2 : cs1 = cs1.takeWhile Char.isDigit ++ (']' :: cs3) := by
              conv_lhs => rw [← List.takeWhile_append_dropWhile Char.isDigit cs1, h4]
            rw [e1]
            conv_lhs => rw [e2]
            simp [List.append_assoc]
          · rw [if_neg hc] at h
            simp at h
  · rintro ⟨idx, rest, ⟨hidxne, hidx⟩, htail, rfl⟩
    rcases idx with _ | ⟨d, idx'⟩
    · exact absurd rfl hidxne
    · have hdd : d.isDigit = true := hidx d (List.mem_cons_self _ _)
      have hgoal : "count[".toList ++ (d :: idx') ++ [']'] ++ rest =
          "count[".toList ++ ((d :: idx') ++ ']' :: rest) := by
        simp [List.append_assoc]
      rw [hgoal]
      have hst : stripLit ("count[".toList)
          ("count[".toList ++ ((d :: idx') ++ ']' :: rest)) =
            some ((d :: idx') ++ ']' :: rest) :=
        (stripLit_eq_some _ _ _).mpr rfl
      obtain ⟨ht, hd⟩ := takeWhile_append_cons Char.isDigit (d :: idx') ']' rest
        hidx (by decide)
      rw [matchCountAnyAt, hst]
      dsimp only
      rw [ht, hd]
      rw [if_neg (by simp)]
      dsimp only
      rw [if_pos rfl]
      exact (matchAfterBracket_isSome_iff rest).mpr htail

theorem matchCountZeroAt_isSome_iff (cs : List Char) :
    (matchCountZeroAt cs).isSome = true ↔ ZeroCountAt cs := by
  constructor
  · intro h
    rw [matchCountZeroAt] at h
    rcases h2 : stripLit ("count[0]".toList) cs with _ | cs1
    · rw [h2] at h
      simp at h
    · rw [h2] at h
      exact ⟨cs1, (matchAfterBracket_isSome_iff cs1).mp h,
        (stripLit_eq_some _ _ _).mp h2⟩
  · rintro ⟨rest, htail, rfl⟩
    have hst : stripLit ("count[0]".toList) ("count[0]".toList ++ rest) =
        some rest := (stripLit_eq_some _ _ _).mpr rfl
    rw [matchCountZeroAt, hst]
    exact (matchAfterBracket_isSome_iff rest).mpr htail

theorem searchFrom_isSome_iff (m : List Char → Option ℕ) (hm : m [] = none)
    (P : List Char → Prop) (hP : ∀ cs, (m cs).isSome = true ↔ P cs) :
    ∀ cs, (searchFrom m cs).isSome = true ↔
      ∃ pre suf, cs = pre ++ suf ∧ P suf := by
  intro cs
  induction cs with
  | nil =>
    rw [searchFrom]
    simp only [Option.isSome_none, Bool.false_eq_true, false_iff]
    rintro ⟨pre, suf, heq, hPs⟩
    obtain ⟨rfl, rfl⟩ := List.append_eq_nil.mp heq.symm
    have := (hP []).mpr hPs
    rw [hm] at this
    cases this
  | cons c cs' ih =>
    rw [searchFrom]
    rcases hmc : m (c :: cs') with _ | v
    · dsimp only
      rw [ih]
      constructor
      · rintro ⟨pre, suf, rfl, hs⟩
        exact ⟨c :: pre, suf, rfl, hs⟩
      · rintro ⟨pre, suf, heq, hs⟩
        cases pre with
        | nil =>
          rw [List.nil_append] at heq
          subst heq
          have := (hP _).mpr hs
          rw [hmc] at this
          cases this
        | cons p pre' =>
          rw [List.cons_append] at heq
          obtain ⟨rfl, heq'⟩ := List.cons.injEq _ _ _ _ ▸ heq
          exact ⟨pre', suf, heq', hs⟩
    · dsimp only
      simp only [Option.isSome_some, true_iff]
      refine ⟨[], c :: cs', rfl, (hP _).mp ?_⟩
      rw [hmc]
      rfl

theorem searchFrom_eq_none_iff (m : List Char → Option ℕ) (hm : m [] = none)
    (P : List Char → Prop) (hP : ∀ cs, (m cs).isSome = true ↔ P cs)
    (cs : List Char) :
    searchFrom m cs = none ↔ ¬∃ pre suf, cs = pre ++ suf ∧ P suf := by
  have hiff := searchFrom_isSome_iff m hm P hP cs
  constructor
  · intro hn hL
    have hs := hiff.mpr hL
    rw [hn] at hs
    cases hs
  · intro hnL
    rcases o : searchFrom m cs with _ | v
    · rfl
    · exact absurd (hiff.mp (by rw [o]; rfl)) hnL

/-- C3 counterexample: the body `"count[0] is 500\ncount[1] is 300"` parses
to 500 — not 800 — under the per-URL variant's `extract_count` (it reads
only the first `count[0] is <int>` occurrence, summing nothing), and a body
with no `count[0]` occurrence yields `none` rather than +infinity.  This
refutes the claim that both partitioner variants sum all occurrences and
turn zero matches into +infinity. -/
theorem c3_counterexample :
    extract_count "count[0] is 500\ncount[1] is 300" = some 500 ∧
    extract_count "count[0] is 500\ncount[1] is 300" ≠ some 800 ∧
    extract_count "count[1] is 300" = none :=
  ⟨by decide, by decide, by decide⟩

/-- C3 amended: the single-URL variant's parser sums, over the lines of the
response body, the value of the first `count[<index>] is <integer>`
occurrence of each line, and yields Metric = +infinity exactly when no line
contains an occurrence (never zero for an unmatched body); on the example
body it yields 800.  The per-URL variant's `extract_count` instead returns
the integer of the first `count[0] is <integer>` occurrence anywhere in the
body — no summing — and `none` (not +infinity) exactly when there is no
such occurrence, so the example body yields 500 there. -/
theorem c3_metric_parsing :
    (∀ s : String, parse_sum_count s = ⊤ ↔
      ∀ line ∈ splitLines s.data, ¬LineHasCountAny line) ∧
    (∀ s : String, extract_count s = none ↔ ¬HasCountZero s.data) ∧
    parse_sum_count "count[0] is 500\ncount[1] is 300" = ((800 : ℕ) : ℕ∞) ∧
    extract_count "count[0] is 500\ncount[1] is 300" = some 500 ∧
    extract_count "count[1] is 300" = none := by
  have ha : ∀ cs : List Char,
      searchFrom matchCountAnyAt cs = none ↔ ¬LineHasCountAny cs :=
    fun cs => searchFrom_eq_none_iff matchCountAnyAt rfl AnyCountAt
      matchCountAnyAt_isSome_iff cs
  have hz : ∀ cs : List Char,
      searchFrom matchCountZeroAt cs = none ↔ ¬HasCountZero cs :=
    fun cs => searchFrom_eq_none_iff matchCountZeroAt rfl ZeroCountAt
      matchCountZeroAt_isSome_iff cs
  refine ⟨?_, fun s => hz s.data, by decide, by decide, by decide⟩
  intro s
  rw [parse_sum_count]
  by_cases hemp : ((splitLines s.data).filterMap
      (fun line => searchFrom matchCountAnyAt line)).isEmpty = true
  · rw [if_pos hemp]
    constructor
    · intro _ line hline
      exact (ha line).mp
        (List.filterMap_eq_nil_iff.mp (List.isEmpty_iff.mp hemp) line hline)
    · intro _
      rfl
  · rw [if_neg hemp]
    constructor
    · intro hcoe
      exact absurd hcoe (ENat.coe_ne_top _)
    · intro hall
      exfalso
      apply hemp
      rw [List.isEmpty_iff, List.filterMap_eq_nil_iff]
      intro line hline
      exact (ha line).mpr (hall line hline)

/-- C3 witness: the amended characterisations applied at concrete bodies —
an unmatched body is recognised as having no pattern occurrence by both
variants. -/
theorem c3_witness :
    ¬LineHasCountAny ("nothing".data) ∧ ¬HasCountZero ("count[1] is 300".data) :=
  ⟨(c3_metric_parsing.1 "nothing").mp (by decide) ("nothing".data) (by decide),
   (c3_metric_parsing.2.1 "count[1] is 300").mp (by decide)⟩

end Shadow
